import Mathlib

/-!
Verification of the codebase-constellations static analyzer.

This development shallowly embeds the analysis pipeline of the repository:
the Babel-AST driven extractors (`extractExports`, `extractImports`,
`extractGlobalDeclarations`, `extractSymbols` with `getEnclosingConditions`
and `conditionToString`), the import resolver (`resolveImport` /
`getCandidates`), the file-graph builder (`analyzeCodebase`) and the
symbol-graph builder (`analyzeSymbols`), plus the `/api/file` path guard of
the HTTP server.  JavaScript strings are modelled as Lean strings, JS
objects and `Map`s as insertion-ordered association lists, and the
filesystem and the Babel parser are passed in explicitly as data
(a set of existing paths, and per-file optional ASTs).
-/

namespace CC

/-! ## JavaScript string primitives (modelled on `List Char`) -/

/-- One maximal run of whitespace becomes a single space:
the model of `text.replace(/\s+/g, " ")`. -/
def collapseWs : List Char → List Char
  | [] => []
  | [c] => if c.isWhitespace then [' '] else [c]
  | c1 :: c2 :: rest =>
    if c1.isWhitespace && c2.isWhitespace then collapseWs (c2 :: rest)
    else (if c1.isWhitespace then ' ' else c1) :: collapseWs (c2 :: rest)

/-- Model of `String.prototype.trim`. -/
def trimChars (l : List Char) : List Char :=
  ((l.dropWhile Char.isWhitespace).reverse.dropWhile Char.isWhitespace).reverse

/-- Model of `text.length > 40 ? text.slice(0, 37) + "..." : text`. -/
def truncate40 (l : List Char) : List Char :=
  if 40 < l.length then l.take 37 ++ ['.', '.', '.'] else l

/-- Model of `sourceCode.slice(a, b)`. -/
def jsSlice (s : String) (a b : Nat) : String :=
  String.mk ((s.toList.drop a).take (b - a))

/-- Split a character list on a separator character (model of
`String.prototype.split` with a one-character separator). -/
def splitOnCharAux (sep : Char) : List Char → List Char → List (List Char)
  | [], acc => [acc.reverse]
  | c :: rest, acc =>
    if c = sep then acc.reverse :: splitOnCharAux sep rest []
    else splitOnCharAux sep rest (c :: acc)

def splitOnChar (sep : Char) (l : List Char) : List (List Char) :=
  splitOnCharAux sep l []

/-- Model of `str.split(sep)` producing strings. -/
def jsSplit (sep : Char) (s : String) : List String :=
  (splitOnChar sep s.toList).map String.mk

/-- Model of `code.split("\n").length`, the line count of a file. -/
def countLines (s : String) : Nat := (jsSplit '\n' s).length

/-- Model of `name.split(".").pop()`. -/
def lastDotSeg (s : String) : String := ((jsSplit '.' s).getLastD s)

/-- Model of `name.includes(".")`. -/
def containsDot (s : String) : Bool := s.toList.contains '.'

/-- Model of `s.startsWith(p)` on JS strings. -/
def jsStartsWith (s p : String) : Bool := p.toList.isPrefixOf s.toList

/-- Model of `s.endsWith(p)` on JS strings. -/
def jsEndsWith (s p : String) : Bool := p.toList.isSuffixOf s.toList

/-- JS truthiness of an optional string (`undefined`, `null` and `""` are
falsy): used to model guards such as `if (node.id?.name)`. -/
def jsT : Option String → Option String
  | some s => if s = "" then none else some s
  | none => none

/-- Model of the JS `a || b` idiom on optional strings (empty strings fall
through to the right operand). -/
def jsOrS (a b : Option String) : Option String :=
  match jsT a with
  | some s => some s
  | none => b

/-- Model of `x || 0` on numbers where `x` may be `undefined`/0. -/
def jsOrNat (a b : Nat) : Nat := if a = 0 then b else a

/-- Code-unit lexicographic comparison, the order used by the default
`Array.prototype.sort` comparator on strings. -/
def leChars : List Char → List Char → Bool
  | [], _ => true
  | _ :: _, [] => false
  | a :: as, b :: bs =>
    if a.toNat < b.toNat then true
    else if b.toNat < a.toNat then false
    else leChars as bs

def leStr (a b : String) : Bool := leChars a.toList b.toList

theorem leChars_total (a b : List Char) : leChars a b = true ∨ leChars b a = true := by
  induction a generalizing b with
  | nil => left; rfl
  | cons x xs ih =>
    cases b with
    | nil => right; rfl
    | cons y ys =>
      by_cases h1 : x.toNat < y.toNat
      · left; simp [leChars, h1]
      · by_cases h2 : y.toNat < x.toNat
        · right; simp [leChars, h2]
        · rcases ih ys with h | h
          · left; simp [leChars, h1, h2, h]
          · right; simp [leChars, h1, h2, h]

theorem charToNat_inj {a b : Char} (h : a.toNat = b.toNat) : a = b := by
  have hv : a.val = b.val := by
    cases hv : a.val
    cases hw : b.val
    simp [Char.toNat, hv, hw] at h
    congr 1
    exact BitVec.eq_of_toNat_eq h
  exact Char.eq_of_val_eq hv

theorem leChars_antisymm (a b : List Char) (h1 : leChars a b = true)
    (h2 : leChars b a = true) : a = b := by
  induction a generalizing b with
  | nil =>
    cases b with
    | nil => rfl
    | cons y ys => simp [leChars] at h2
  | cons x xs ih =>
    cases b with
    | nil => simp [leChars] at h1
    | cons y ys =>
      by_cases c1 : x.toNat < y.toNat
      · simp [leChars, c1, Nat.lt_asymm c1] at h2
      · by_cases c2 : y.toNat < x.toNat
        · simp [leChars, c1, c2] at h1
        · have hxy : x = y := charToNat_inj (Nat.le_antisymm (Nat.le_of_not_lt c2) (Nat.le_of_not_lt c1))
          simp [leChars, c1, c2] at h1 h2
          rw [hxy, ih ys h1 h2]

theorem leStr_total (a b : String) : leStr a b = true ∨ leStr b a = true :=
  leChars_total a.toList b.toList

theorem leStr_antisymm (a b : String) (h1 : leStr a b = true)
    (h2 : leStr b a = true) : a = b := by
  have h := leChars_antisymm a.toList b.toList h1 h2
  cases a; cases b
  exact congrArg String.mk h

/-! ## Insertion-ordered association lists

JS objects (with string keys) and `Map`s both preserve insertion order and
overwrite in place; these folds model exactly that. -/

/-- `m[k]` / `m.get(k)`. -/
def aget {α : Type} : List (String × α) → String → Option α
  | [], _ => none
  | (k', v) :: rest, k => if k' = k then some v else aget rest k

/-- `m[k] = v` / `m.set(k, v)`: update in place, else append. -/
def aset {α : Type} : List (String × α) → String → α → List (String × α)
  | [], k, v => [(k, v)]
  | (k', v') :: rest, k, v =>
    if k' = k then (k, v) :: rest else (k', v') :: aset rest k v

def akeys {α : Type} (m : List (String × α)) : List String := m.map Prod.fst

def avalues {α : Type} (m : List (String × α)) : List α := m.map Prod.snd

theorem aget_aset_self {α : Type} (m : List (String × α)) (k : String) (v : α) :
    aget (aset m k v) k = some v := by
  induction m with
  | nil => simp [aset, aget]
  | cons p rest ih =>
    obtain ⟨k', v'⟩ := p
    by_cases h : k' = k
    · simp [aset, aget, h]
    · simp [aset, aget, h, ih]

theorem aget_aset_ne {α : Type} (m : List (String × α)) (k k' : String) (v : α)
    (h : k ≠ k') : aget (aset m k v) k' = aget m k' := by
  induction m with
  | nil => simp [aset, aget, h]
  | cons p rest ih =>
    obtain ⟨k0, v0⟩ := p
    by_cases h0 : k0 = k
    · subst h0; simp [aset, aget, h, Ne.symm h]
    · by_cases h1 : k0 = k'
      · subst h1; simp [aset, aget, h0, Ne.symm h]
      · simp [aset, aget, h0, h1, ih]

theorem mem_aset {α : Type} (m : List (String × α)) (k : String) (v : α)
    (p : String × α) (hp : p ∈ aset m k v) : p = (k, v) ∨ p ∈ m := by
  induction m with
  | nil => simp [aset] at hp; simp [hp]
  | cons q rest ih =>
    obtain ⟨k0, v0⟩ := q
    by_cases h0 : k0 = k
    · simp [aset, h0] at hp
      rcases hp with h | h
      · left; simp [h]
      · right; simp [h]
    · simp [aset, h0] at hp
      rcases hp with h | h
      · right; simp [h]
      · rcases ih h with h' | h'
        · left; exact h'
        · right; simp [h']

/-- Keys of an association list are pairwise distinct — the invariant a JS
object maintains. -/
def KeysDistinct {α : Type} (m : List (String × α)) : Prop :=
  List.Pairwise (fun p q : String × α => p.1 ≠ q.1) m

theorem keysDistinct_aset {α : Type} (m : List (String × α)) (k : String) (v : α)
    (h : KeysDistinct m) : KeysDistinct (aset m k v) := by
  induction m with
  | nil => simp [aset, KeysDistinct]
  | cons q rest ih =>
    obtain ⟨k0, v0⟩ := q
    rw [KeysDistinct, List.pairwise_cons] at h
    by_cases h0 : k0 = k
    · subst h0
      have he : aset ((k0, v0) :: rest) k0 v = (k0, v) :: rest := by simp [aset]
      rw [he, KeysDistinct, List.pairwise_cons]
      exact h
    · have h1 := ih h.2
      have he : aset ((k0, v0) :: rest) k v = (k0, v0) :: aset rest k v := by
        simp [aset, h0]
      rw [he, KeysDistinct, List.pairwise_cons]
      refine ⟨?_, h1⟩
      intro p hp
      rcases mem_aset rest k v p hp with h' | h'
      · rw [h']; exact h0
      · exact h.1 p h'

theorem keysDistinct_entry_unique {α : Type} (m : List (String × α))
    (h : KeysDistinct m) (p q : String × α) (hp : p ∈ m) (hq : q ∈ m)
    (hk : p.1 = q.1) : p = q := by
  induction m with
  | nil => simp at hp
  | cons a rest ih =>
    rw [KeysDistinct, List.pairwise_cons] at h
    rcases List.mem_cons.mp hp with hp' | hp' <;>
      rcases List.mem_cons.mp hq with hq' | hq'
    · rw [hp', hq']
    · exfalso; exact h.1 q hq' (hp' ▸ hk)
    · exfalso; exact h.1 p hp' (hq' ▸ hk.symm)
    · exact ih h.2 hp' hq'

theorem aget_isSome_exists {α : Type} (m : List (String × α)) (k : String)
    (h : (aget m k).isSome) : ∃ v, (k, v) ∈ m := by
  induction m with
  | nil => simp [aget] at h
  | cons q rest ih =>
    obtain ⟨k0, v0⟩ := q
    by_cases h0 : k0 = k
    · subst h0; exact ⟨v0, List.mem_cons_self _ _⟩
    · simp only [aget, if_neg h0] at h
      obtain ⟨v, hv⟩ := ih h
      exact ⟨v, List.mem_cons_of_mem _ hv⟩

/-! ## Babel AST model

The constructors cover exactly the node shapes the extractors in
`parser.js` inspect; `unknown` stands for any other node kind and keeps its
children so that traversal still descends.  `Span` models the `start`/`end`
character offsets and `Loc` the `loc.start.line`/`loc.end.line` info, both
optional as in Babel. -/

structure Span where
  start : Option Nat
  stop : Option Nat
deriving DecidableEq

def noSpan : Span := ⟨none, none⟩

structure Loc where
  startLine : Nat
  endLine : Nat
deriving DecidableEq

/-- Function parameter patterns, as far as the extractors distinguish them
(`Identifier`, `AssignmentPattern` with identifier left side, `RestElement`
with identifier argument, anything else). -/
inductive JsParam where
  | ident (name : String)
  | assignIdent (name : String)
  | rest (name : String)
  | other
deriving DecidableEq

/-- Import-declaration specifiers (`ImportDefaultSpecifier`,
`ImportNamespaceSpecifier`, `ImportSpecifier`). -/
inductive RawImportSpec where
  | defaultSpec (localName : String)
  | namespaceSpec (localName : String)
  | namedSpec (imported : Option String) (localName : String)
deriving DecidableEq

inductive Js where
  | program (body : List Js)
  | expressionStatement (expr : Js) (span : Span)
  | blockStatement (body : List Js) (span : Span)
  | exportNamedDeclaration (declaration : Option Js) (specifiers : List String)
  | exportDefaultDeclaration (declaration : Js)
  | assignmentExpression (left : Js) (right : Js)
  | objectExpression (properties : List Js) (span : Span)
  | objectProperty (key : Option String) (value : Js)
  | identifier (name : String) (span : Span)
  | stringLiteral (value : String) (span : Span)
  | memberExpression (object : Js) (property : Option String) (span : Span)
  | callExpression (callee : Js) (arguments : List Js) (span : Span) (loc : Option Loc)
  | functionDeclaration (id : Option String) (params : List JsParam) (body : List Js) (loc : Option Loc)
  | arrowFunctionExpression (params : List JsParam) (body : List Js) (loc : Option Loc)
  | functionExpression (body : List Js) (loc : Option Loc)
  | classDeclaration (id : Option String) (superClass : Option String) (body : List Js) (loc : Option Loc)
  | classMethod (key : Option String) (params : List JsParam) (body : List Js) (loc : Option Loc)
  | variableDeclaration (declarations : List Js) (loc : Option Loc)
  | variableDeclarator (idName : Option String) (idIsObjectPattern : Bool) (init : Option Js) (loc : Option Loc)
  | ifStatement (test : Js) (consequent : Js) (alternate : Option Js) (span : Span)
  | conditionalExpression (test : Js) (consequent : Js) (alternate : Js) (span : Span)
  | tsTypeAliasDeclaration (id : Option String) (loc : Option Loc)
  | tsInterfaceDeclaration (id : Option String) (loc : Option Loc)
  | tsEnumDeclaration (id : Option String)
  | importDeclaration (source : String) (specifiers : List RawImportSpec)
  | importKeyword
  | unknown (children : List Js) (span : Span)

namespace Js

/-- The `start` offset of a node, when the model carries it. -/
def startPos : Js → Option Nat
  | .expressionStatement _ sp => sp.start
  | .blockStatement _ sp => sp.start
  | .objectExpression _ sp => sp.start
  | .identifier _ sp => sp.start
  | .stringLiteral _ sp => sp.start
  | .memberExpression _ _ sp => sp.start
  | .callExpression _ _ sp _ => sp.start
  | .ifStatement _ _ _ sp => sp.start
  | .conditionalExpression _ _ _ sp => sp.start
  | .unknown _ sp => sp.start
  | _ => none

/-- The `end` offset of a node, when the model carries it. -/
def endPos : Js → Option Nat
  | .expressionStatement _ sp => sp.stop
  | .blockStatement _ sp => sp.stop
  | .objectExpression _ sp => sp.stop
  | .identifier _ sp => sp.stop
  | .stringLiteral _ sp => sp.stop
  | .memberExpression _ _ sp => sp.stop
  | .callExpression _ _ sp _ => sp.stop
  | .ifStatement _ _ _ sp => sp.stop
  | .conditionalExpression _ _ _ sp => sp.stop
  | .unknown _ sp => sp.stop
  | _ => none

end Js

/-- `loc?.start.line || 0`. -/
def locStart : Option Loc → Nat
  | some l => l.startLine
  | none => 0

/-- `loc?.end.line || 0`. -/
def locEnd : Option Loc → Nat
  | some l => l.endLine
  | none => 0

-- All `(node, ancestors)` pairs of a tree in depth-first pre-order, the
-- visiting order of `@babel/traverse`; `anc` lists the ancestors innermost
-- first, exactly the `path.parentPath` chain.
mutual

def pathsOf : Js → List Js → List (Js × List Js)
  | n@(.program body), anc => (n, anc) :: pathsList body (n :: anc)
  | n@(.expressionStatement e _), anc => (n, anc) :: pathsOf e (n :: anc)
  | n@(.blockStatement body _), anc => (n, anc) :: pathsList body (n :: anc)
  | n@(.exportNamedDeclaration d _), anc => (n, anc) :: pathsOpt d (n :: anc)
  | n@(.exportDefaultDeclaration d), anc => (n, anc) :: pathsOf d (n :: anc)
  | n@(.assignmentExpression l r), anc =>
    (n, anc) :: (pathsOf l (n :: anc) ++ pathsOf r (n :: anc))
  | n@(.objectExpression props _), anc => (n, anc) :: pathsList props (n :: anc)
  | n@(.objectProperty _ v), anc => (n, anc) :: pathsOf v (n :: anc)
  | n@(.identifier _ _), anc => [(n, anc)]
  | n@(.stringLiteral _ _), anc => [(n, anc)]
  | n@(.memberExpression o _ _), anc => (n, anc) :: pathsOf o (n :: anc)
  | n@(.callExpression callee args _ _), anc =>
    (n, anc) :: (pathsOf callee (n :: anc) ++ pathsList args (n :: anc))
  | n@(.functionDeclaration _ _ body _), anc => (n, anc) :: pathsList body (n :: anc)
  | n@(.arrowFunctionExpression _ body _), anc => (n, anc) :: pathsList body (n :: anc)
  | n@(.functionExpression body _), anc => (n, anc) :: pathsList body (n :: anc)
  | n@(.classDeclaration _ _ body _), anc => (n, anc) :: pathsList body (n :: anc)
  | n@(.classMethod _ _ body _), anc => (n, anc) :: pathsList body (n :: anc)
  | n@(.variableDeclaration ds _), anc => (n, anc) :: pathsList ds (n :: anc)
  | n@(.variableDeclarator _ _ init _), anc => (n, anc) :: pathsOpt init (n :: anc)
  | n@(.ifStatement t c alt _), anc =>
    (n, anc) :: (pathsOf t (n :: anc) ++ pathsOf c (n :: anc) ++ pathsOpt alt (n :: anc))
  | n@(.conditionalExpression t c a _), anc =>
    (n, anc) :: (pathsOf t (n :: anc) ++ pathsOf c (n :: anc) ++ pathsOf a (n :: anc))
  | n@(.tsTypeAliasDeclaration _ _), anc => [(n, anc)]
  | n@(.tsInterfaceDeclaration _ _), anc => [(n, anc)]
  | n@(.tsEnumDeclaration _), anc => [(n, anc)]
  | n@(.importDeclaration _ _), anc => [(n, anc)]
  | n@(.importKeyword), anc => [(n, anc)]
  | n@(.unknown cs _), anc => (n, anc) :: pathsList cs (n :: anc)

def pathsList : List Js → List Js → List (Js × List Js)
  | [], _ => []
  | x :: xs, anc => pathsOf x anc ++ pathsList xs anc

def pathsOpt : Option Js → List Js → List (Js × List Js)
  | none, _ => []
  | some x, anc => pathsOf x anc

end

/-! ## Fact records produced by the extractors -/

structure ExportFact where
  name : String
  type : String
deriving DecidableEq

structure Specifier where
  name : String
  type : String
deriving DecidableEq

structure Import where
  source : String
  resolved : Option String
  specifiers : List Specifier
deriving DecidableEq

structure Cond where
  condition : String
  branch : String
deriving DecidableEq

structure Symbol where
  id : String
  name : String
  type : String
  file : String
  startLine : Nat
  endLine : Nat
  params : List String
  parent : Option String
  exported : Bool
  methods : List String
  superClass : Option String
deriving DecidableEq

structure CallFact where
  caller : String
  callee : String
  objectName : Option String
  conditions : List Cond
  line : Nat
deriving DecidableEq

/-- `node.name` of an `Identifier`, `undefined` otherwise. -/
def getName : Js → Option String
  | .identifier n _ => some n
  | _ => none

/-! ## extractExports -/

/-- The `if (decl)` body of the `ExportNamedDeclaration` visitor. -/
def declExports : Js → List ExportFact
  | .functionDeclaration (some n) _ _ _ => [⟨n, "function"⟩]
  | .classDeclaration (some n) _ _ _ => [⟨n, "class"⟩]
  | .variableDeclaration ds _ =>
    ds.flatMap fun d =>
      match d with
      | .variableDeclarator idn _ _ _ =>
        match jsT idn with
        | some n => [⟨n, "variable"⟩]
        | none => []
      | _ => []
  | .tsTypeAliasDeclaration (some n) _ => [⟨n, "type"⟩]
  | .tsInterfaceDeclaration (some n) _ => [⟨n, "interface"⟩]
  | .tsEnumDeclaration (some n) => [⟨n, "enum"⟩]
  | _ => []

/-- `.id` of a declaration node, for `decl.id?.name`. -/
def declIdName : Js → Option String
  | .functionDeclaration i _ _ _ => i
  | .classDeclaration i _ _ _ => i
  | .tsTypeAliasDeclaration i _ => i
  | .tsInterfaceDeclaration i _ => i
  | .tsEnumDeclaration i => i
  | _ => none

/-- `decl.id?.name || decl.name || "default"`. -/
def exportDefaultName (d : Js) : String :=
  match jsT (declIdName d) with
  | some n => n
  | none =>
    match jsT (getName d) with
    | some n => n
    | none => "default"

/-- The `AssignmentExpression` visitor of `extractExports` (CommonJS
`module.exports = ...` and `exports.x = ...` patterns). -/
def assignExports (left right : Js) : List ExportFact :=
  match left with
  | .memberExpression obj prop _ =>
    if getName obj = some "module" ∧ prop = some "exports" then
      match right with
      | .identifier n _ => [⟨n, "cjs-default"⟩]
      | .objectExpression props _ =>
        props.flatMap fun p =>
          match p with
          | .objectProperty k _ =>
            match jsT k with
            | some n => [⟨n, "cjs"⟩]
            | none => []
          | _ => []
      | _ => [⟨"default", "cjs-default"⟩]
    else if getName obj = some "exports" then
      match jsT prop with
      | some p => [⟨p, "cjs"⟩]
      | none => []
    else []
  | _ => []

def exportVisitor : Js → List ExportFact
  | .exportNamedDeclaration d specs =>
    (match d with
     | some dd => declExports dd
     | none => []) ++ specs.map (⟨·, "re-export"⟩)
  | .exportDefaultDeclaration d => [⟨exportDefaultName d, "default"⟩]
  | .assignmentExpression l r => assignExports l r
  | _ => []

def extractExports (ast : Js) : List ExportFact :=
  (pathsOf ast []).flatMap fun p => exportVisitor p.1

/-! ## extractImports

`resolveImport` reads the filesystem, so the resolver is passed in
explicitly; the candidate probing itself is modelled further below. -/

def mapImportSpec : RawImportSpec → Specifier
  | .defaultSpec l => ⟨l, "default"⟩
  | .namespaceSpec l => ⟨l, "namespace"⟩
  | .namedSpec imp l => ⟨(jsOrS imp (some l)).getD l, "named"⟩

def importVisitor (resolve : String → Option String) : Js → List Import
  | .importDeclaration source specs =>
    match resolve source with
    | none => []
    | some r => [⟨source, some r, specs.map mapImportSpec⟩]
  | .callExpression callee args _ _ =>
    (match callee, args with
     | .identifier "require" _, [.stringLiteral v _] =>
       match resolve v with
       | some r => [⟨v, some r, [⟨"default", "require"⟩]⟩]
       | none => []
     | _, _ => []) ++
    (match callee, args with
     | .importKeyword, .stringLiteral v _ :: _ =>
       match resolve v with
       | some r => [⟨v, some r, [⟨"default", "dynamic"⟩]⟩]
       | none => []
     | _, _ => [])
  | _ => []

def extractImports (ast : Js) (resolve : String → Option String) : List Import :=
  (pathsOf ast []).flatMap fun p => importVisitor resolve p.1

/-! ## extractGlobalDeclarations -/

def parentIsProgram : List Js → Bool
  | .program _ :: _ => true
  | _ => false

/-- `d.init && d.init.type === "CallExpression" && d.init.callee &&
d.init.callee.name === "require"`. -/
def isRequireCall : Option Js → Bool
  | some (.callExpression callee _ _ _) => getName callee = some "require"
  | _ => false

def globalVisitor : Js × List Js → List ExportFact
  | (.functionDeclaration id _ _ _, anc) =>
    if parentIsProgram anc then
      match id with
      | some n => [⟨n, "function"⟩]
      | none => []
    else []
  | (.classDeclaration id _ _ _, anc) =>
    if parentIsProgram anc then
      match id with
      | some n => [⟨n, "class"⟩]
      | none => []
    else []
  | (.variableDeclaration ds _, anc) =>
    if parentIsProgram anc then
      ds.flatMap fun d =>
        match d with
        | .variableDeclarator idn isPat initd _ =>
          match jsT idn with
          | some n =>
            if n.length < 3 then []
            else if isRequireCall initd then []
            else if isPat then []
            else [⟨n, "variable"⟩]
          | none => []
        | _ => []
    else []
  | _ => []

def extractGlobalDeclarations (ast : Js) : List ExportFact :=
  (pathsOf ast []).flatMap globalVisitor

/-! ## extractSymbols -/

def paramName : JsParam → String
  | .ident n => n
  | .assignIdent n => n
  | _ => "..."

/-- The method-parameter mapping additionally handles `RestElement`. -/
def paramNameMethod : JsParam → String
  | .ident n => n
  | .assignIdent n => n
  | .rest n => "..." ++ n
  | .other => "..."

/-- Model of `conditionToString(node, sourceCode)`: slice the source at the
node's offsets, collapse whitespace, trim, truncate to at most 40
characters (37 plus a three-dot ellipsis). -/
def conditionToString (startP stopP : Option Nat) (sourceCode : String) : Option String :=
  if sourceCode = "" then none
  else
    match startP, stopP with
    | some s, some e =>
      some (String.mk (truncate40 (trimChars (collapseWs ((sourceCode.toList.drop s).take (e - s))))))
    | _, _ => none

/-- `alt && callStart >= alt.start && callEnd <= alt.end`, with JS
comparisons against `undefined` evaluating to false. -/
def inRangeAlt (callStart callEnd : Option Nat) (alt : Js) : Bool :=
  match callStart, callEnd, alt.startPos, alt.endPos with
  | some cs, some ce, some a0, some a1 => decide (a0 ≤ cs) && decide (ce ≤ a1)
  | _, _, _, _ => false

/-- `alt && callStart >= alt.start` for the ternary-branch decision. -/
def altStartLe (callStart : Option Nat) (alt : Js) : Bool :=
  match callStart, alt.startPos with
  | some cs, some a0 => decide (a0 ≤ cs)
  | _, _ => false

/-- Model of `getEnclosingConditions`: walk the ancestor chain outward from
the call, return at most the innermost conditional context, stop at the
first function boundary. -/
def getEnclosingConditions (callStart callEnd : Option Nat) (sourceCode : String) :
    List Js → List Cond
  | [] => []
  | scope :: rest =>
    match scope with
    | .ifStatement test _ alt _ =>
      (match jsT (conditionToString test.startPos test.endPos sourceCode) with
       | some t =>
         let branch :=
           match alt with
           | some a => if inRangeAlt callStart callEnd a then "else" else "if"
           | none => "if"
         [⟨t, branch⟩]
       | none => getEnclosingConditions callStart callEnd sourceCode rest)
    | .conditionalExpression test _ alt _ =>
      (match jsT (conditionToString test.startPos test.endPos sourceCode) with
       | some t =>
         let branch := if altStartLe callStart alt then ":" else "?"
         [⟨t, branch⟩]
       | none => getEnclosingConditions callStart callEnd sourceCode rest)
    | .functionDeclaration _ _ _ _ => []
    | .arrowFunctionExpression _ _ _ => []
    | .functionExpression _ _ => []
    | .classMethod _ _ _ _ => []
    | _ => getEnclosingConditions callStart callEnd sourceCode rest

/-- `while (classScope && classScope.node.type !== "ClassDeclaration")
classScope = classScope.parentPath` followed by `classScope?.node?.id?.name`. -/
def findClassName : List Js → Option String
  | [] => none
  | .classDeclaration id _ _ _ :: _ => id
  | _ :: rest => findClassName rest

/-- The enclosing-function walk of the `CallExpression` visitor in
`extractSymbols` (starting at the call node itself). -/
def findCaller : List Js → Option String
  | [] => none
  | scope :: rest =>
    match scope with
    | .functionDeclaration id _ _ _ =>
      (match id with
       | some n => some n
       | none => findCaller rest)
    | .arrowFunctionExpression _ _ _ =>
      (match rest with
       | .variableDeclarator idn _ _ _ :: _ =>
         (match jsT idn with
          | some n => some n
          | none => findCaller rest)
       | _ => findCaller rest)
    | .functionExpression _ _ =>
      (match rest with
       | .variableDeclarator idn _ _ _ :: _ =>
         (match jsT idn with
          | some n => some n
          | none => findCaller rest)
       | _ => findCaller rest)
    | .classMethod key _ _ _ =>
      (match jsT key with
       | some k =>
         (match jsT (findClassName rest) with
          | some cn => some (cn ++ "." ++ k)
          | none => none)
       | none => findCaller rest)
    | _ => findCaller rest

def isExportNamedParent : List Js → Bool
  | .exportNamedDeclaration _ _ :: _ => true
  | _ => false

def isExportParent : List Js → Bool
  | .exportNamedDeclaration _ _ :: _ => true
  | .exportDefaultDeclaration _ :: _ => true
  | _ => false

def isArrowInit : Option Js → Bool
  | some (.arrowFunctionExpression _ _ _) => true
  | _ => false

def isFnExprInit : Option Js → Bool
  | some (.functionExpression _ _) => true
  | _ => false

/-- Symbol-producing part of the `extractSymbols` visitors, per node. -/
def symbolsAt (relFile : String) : Js × List Js → List Symbol
  | (.functionDeclaration id params _ loc, anc) =>
    (match id with
     | some n =>
       [{ id := relFile ++ "::" ++ n, name := n, type := "function", file := relFile,
          startLine := locStart loc, endLine := locEnd loc,
          params := params.map paramName, parent := none,
          exported := isExportParent anc, methods := [], superClass := none }]
     | none => [])
  | (.arrowFunctionExpression params _ loc, anc) =>
    (match anc with
     | .variableDeclarator idn _ _ _ :: rest =>
       (match jsT idn with
        | some n =>
          [{ id := relFile ++ "::" ++ n, name := n, type := "function", file := relFile,
             startLine := locStart loc, endLine := locEnd loc,
             params := params.map paramName, parent := none,
             exported := isExportNamedParent rest, methods := [], superClass := none }]
        | none => [])
     | _ => [])
  | (.classDeclaration id superClass members loc, anc) =>
    (match id with
     | some className =>
       (members.flatMap fun m =>
         match m with
         | .classMethod key params _ mloc =>
           (match jsT key with
            | some mn =>
              [{ id := relFile ++ "::" ++ className ++ "." ++ mn,
                 name := className ++ "." ++ mn, type := "method", file := relFile,
                 startLine := locStart mloc, endLine := locEnd mloc,
                 params := params.map paramNameMethod,
                 parent := some (relFile ++ "::" ++ className),
                 exported := false, methods := [], superClass := none }]
            | none => [])
         | _ => []) ++
       [{ id := relFile ++ "::" ++ className, name := className, type := "class",
          file := relFile, startLine := locStart loc, endLine := locEnd loc,
          params := [], parent := none, exported := isExportParent anc,
          methods := members.flatMap fun m =>
            match m with
            | .classMethod key _ _ _ =>
              (match jsT key with
               | some mn => [mn]
               | none => [])
            | _ => [],
          superClass := jsT superClass }]
     | none => [])
  | (.variableDeclaration ds loc, anc) =>
    if parentIsProgram anc || isExportNamedParent anc then
      ds.flatMap fun d =>
        match d with
        | .variableDeclarator idn _ initd dloc =>
          (match jsT idn with
           | some n =>
             if n.length < 2 then []
             else if isRequireCall initd then []
             else if isArrowInit initd then []
             else if isFnExprInit initd then []
             else
               [{ id := relFile ++ "::" ++ n, name := n, type := "variable",
                  file := relFile,
                  startLine := jsOrNat (locStart dloc) (locStart loc),
                  endLine := jsOrNat (locEnd dloc) (locEnd loc),
                  params := [], parent := none,
                  exported := isExportNamedParent anc, methods := [],
                  superClass := none }]
           | none => [])
        | _ => []
    else []
  | (.tsTypeAliasDeclaration id loc, anc) =>
    (match id with
     | some n =>
       [{ id := relFile ++ "::" ++ n, name := n, type := "type", file := relFile,
          startLine := locStart loc, endLine := locEnd loc, params := [],
          parent := none, exported := isExportNamedParent anc, methods := [],
          superClass := none }]
     | none => [])
  | (.tsInterfaceDeclaration id loc, anc) =>
    (match id with
     | some n =>
       [{ id := relFile ++ "::" ++ n, name := n, type := "interface", file := relFile,
          startLine := locStart loc, endLine := locEnd loc, params := [],
          parent := none, exported := isExportNamedParent anc, methods := [],
          superClass := none }]
     | none => [])
  | _ => []

/-- Call-fact-producing part of the `extractSymbols` `CallExpression`
visitor, per node. -/
def callsAt (sourceCode : String) : Js × List Js → List CallFact
  | (n@(.callExpression callee _ sp loc), anc) =>
    let calledAndObject : Option String × Option String :=
      match callee with
      | .identifier nm _ => (some nm, none)
      | .memberExpression obj prop _ =>
        (match jsT prop with
         | some pn =>
           (some pn,
            match obj with
            | .identifier o _ => some o
            | _ => none)
         | none => (none, none))
      | _ => (none, none)
    (match jsT calledAndObject.1 with
     | none => []
     | some calledName =>
       if calledName = "require" then []
       else
         match findCaller (n :: anc) with
         | some caller =>
           [{ caller := caller, callee := calledName,
              objectName := calledAndObject.2,
              conditions := getEnclosingConditions sp.start sp.stop sourceCode anc,
              line := locStart loc }]
         | none => [])
  | _ => []

def extractSymbols (ast : Js) (relFile : String) (sourceCode : String) :
    List Symbol × List CallFact :=
  ((pathsOf ast []).flatMap (symbolsAt relFile),
   (pathsOf ast []).flatMap (callsAt sourceCode))

/-! ## Paths and the import resolver

Absolute paths are modelled as segment lists; the filesystem is the list of
existing absolute paths.  `pathResolve` models Node's `path.resolve` for
the relative/absolute specifiers the resolver accepts, and `pathRelative`
models `path.relative` in the configuration the analyzer uses it in (the
base is always an ancestor of the path). -/

def EXTENSIONS : List String := [".js", ".jsx", ".ts", ".tsx", ".mjs", ".cjs"]

def ALL_EXTENSIONS : List String := EXTENSIONS ++ [".html", ".htm"]

def pathSegResolve (dir : List String) (segs : List String) : List String :=
  segs.foldl
    (fun acc seg =>
      if seg = "" ∨ seg = "." then acc
      else if seg = ".." then acc.dropLast
      else acc ++ [seg])
    dir

def pathResolve (dir : List String) (source : String) : List String :=
  if jsStartsWith source "/" then pathSegResolve [] (jsSplit '/' source)
  else pathSegResolve dir (jsSplit '/' source)

def renderAbs (p : List String) : String := "/" ++ String.intercalate "/" p

def pathRelative (root p : List String) : String :=
  String.intercalate "/" (p.drop root.length)

def relSegs (file : String) : List String :=
  (jsSplit '/' file).filter (fun s => s ≠ "")

/-- `path.extname`. -/
def extname (file : String) : String :=
  let base := (jsSplit '/' file).getLastD ""
  let parts := jsSplit '.' base
  match parts with
  | [] => ""
  | [_] => ""
  | first :: restParts =>
    if first = "" ∧ restParts.length = 1 then ""
    else "." ++ restParts.getLastD ""

/-- `path.dirname` on a relative path. -/
def dirnameRel (file : String) : String :=
  let segs := jsSplit '/' file
  if segs.length ≤ 1 then "." else String.intercalate "/" segs.dropLast

/-- `getCandidates(base)`: the exact path, the path with each source
extension appended, and each directory-index file. -/
def getCandidates (base : List String) : List (List String) :=
  [base] ++
  EXTENSIONS.map (fun ext => base.dropLast ++ [base.getLastD "" ++ ext]) ++
  EXTENSIONS.map (fun ext => base ++ ["index" ++ ext])

/-- Model of `resolveImport(source, fromFile, rootDir)`: non-relative
specifiers are external; otherwise the first candidate existing on the
filesystem wins and is returned root-relative. -/
def resolveImport (fs : List (List String)) (source : String)
    (fromFile rootDir : List String) : Option String :=
  if !(jsStartsWith source "." || jsStartsWith source "/") then none
  else
    let dir := fromFile.dropLast
    let resolved := pathResolve dir source
    match (getCandidates resolved).find? (fun c => fs.contains c) with
    | some c => some (pathRelative rootDir c)
    | none => none

/-! ## analyzeCodebase

The glob scan, `fs.readFileSync` and the Babel parse are I/O; one analysis
run is therefore a function of the scanned file list, where each scanned
file carries its text, its parse result (`none` models a parse failure) and
— for HTML files — the `extractHtmlScriptRefs` result. -/

structure CbFile where
  file : String
  source : String
  ast : Option Js
  scriptRefs : List String

structure FileData where
  exports : List ExportFact
  imports : List Import
  lines : Nat
  globals : List ExportFact
  htmlScriptRefs : Option (List String)
deriving DecidableEq

structure FileNode where
  id : String
  exports : List ExportFact
  lines : Nat
  folder : String
  extension : String
  incomingCount : Nat
deriving DecidableEq

structure FileEdge where
  source : String
  target : String
  weight : Nat
  references : List String
deriving DecidableEq

structure CbGraph where
  nodes : List FileNode
  edges : List FileEdge
  folders : List String
  extensions : List String

def isHtmlExt (e : String) : Bool := e = ".html" || e = ".htm"

/-- `m[k] = f(m[k])` when the key is present (the analyzer only updates
entries it created in the first pass). -/
def amodify {α : Type} : List (String × α) → String → (α → α) → List (String × α)
  | [], _, _ => []
  | (k', v) :: rest, k, f =>
    if k' = k then (k, f v) :: rest else (k', v) :: amodify rest k f

/-- The resolver `extractImports` uses for a given file of the run. -/
def cbResolve (root : List String) (fs : List (List String)) (file : String) :
    String → Option String :=
  fun src => resolveImport fs src (root ++ relSegs file) root

/-- The per-file step of the first `analyzeCodebase` pass: exports and line
counts; HTML files get their script refs; a parse failure records a
zero-fact entry with `lines: 0`. -/
def cbPass1Step (fd : List (String × FileData)) (f : CbFile) : List (String × FileData) :=
  if isHtmlExt (extname f.file) then
    aset fd f.file ⟨[], [], countLines f.source, [], some f.scriptRefs⟩
  else
    match f.ast with
    | none => aset fd f.file ⟨[], [], 0, [], none⟩
    | some ast => aset fd f.file ⟨extractExports ast, [], countLines f.source, [], none⟩

def cbPass1 (files : List CbFile) : List (String × FileData) :=
  files.foldl cbPass1Step []

/-- The `extractImports` result of one scanned file within a run (empty for
unparseable files, which never reach the extractor). -/
def cbImportsOf (root : List String) (fs : List (List String)) (f : CbFile) :
    List Import :=
  match f.ast with
  | some ast => extractImports ast (cbResolve root fs f.file)
  | none => []

/-- The per-file step of the second pass: imports and global declarations
for parseable JS/TS files. -/
def cbPass2Step (root : List String) (fs : List (List String))
    (fd : List (String × FileData)) (f : CbFile) : List (String × FileData) :=
  if isHtmlExt (extname f.file) then fd
  else
    match f.ast with
    | none => fd
    | some ast =>
      amodify fd f.file fun d =>
        { d with imports := extractImports ast (cbResolve root fs f.file),
                 globals := extractGlobalDeclarations ast }

def cbPass2 (root : List String) (fs : List (List String)) (files : List CbFile)
    (fd0 : List (String × FileData)) : List (String × FileData) :=
  files.foldl (cbPass2Step root fs) fd0

def cbFileData (root : List String) (fs : List (List String)) (files : List CbFile) :
    List (String × FileData) :=
  cbPass2 root fs files (cbPass1 files)

def defaultFD : FileData := ⟨[], [], 0, [], none⟩

/-- Merge exports and globals for the node (a declaration name is added
only when it is not already an export name). -/
def mergedExports (d : FileData) : List ExportFact :=
  d.exports ++ d.globals.filter (fun g => !(d.exports.map ExportFact.name).contains g.name)

def cbNodes (fd : List (String × FileData)) (files : List CbFile) : List FileNode :=
  files.map fun f =>
    let d := (aget fd f.file).getD defaultFD
    ⟨f.file, mergedExports d, d.lines, dirnameRel f.file, extname f.file, 0⟩

/-- `[file, target].sort().join("|||")` — the canonical unordered-pair key. -/
def sortJoin (a b : String) : String :=
  if leStr a b then a ++ "|||" ++ b else b ++ "|||" ++ a

def addImportEdge (file : String) (fd : List (String × FileData))
    (em : List (String × FileEdge)) (imp : Import) : List (String × FileEdge) :=
  match imp.resolved with
  | none => em
  | some r =>
    if (aget fd r).isSome then
      let key := sortJoin file r
      let em1 := if (aget em key).isSome then em else aset em key ⟨file, r, 0, []⟩
      amodify em1 key fun e =>
        { e with weight := e.weight + imp.specifiers.length,
                 references := e.references ++ imp.specifiers.map Specifier.name }
    else em

def cbImportEdgesStep (fd : List (String × FileData)) (em : List (String × FileEdge))
    (f : CbFile) : List (String × FileEdge) :=
  ((aget fd f.file).getD defaultFD).imports.foldl (addImportEdge f.file fd) em

def cbImportEdges (fd : List (String × FileData)) (files : List CbFile) :
    List (String × FileEdge) :=
  files.foldl (cbImportEdgesStep fd) []

def addScriptEdge (file : String) (fd : List (String × FileData))
    (em : List (String × FileEdge)) (scriptFile : String) : List (String × FileEdge) :=
  if (aget fd scriptFile).isSome then
    let key := sortJoin file scriptFile
    let em1 := if (aget em key).isSome then em else aset em key ⟨file, scriptFile, 0, []⟩
    amodify em1 key fun e =>
      { e with weight := e.weight + 1, references := e.references ++ ["script-src"] }
  else em

def cbHtmlEdgesStep (fd : List (String × FileData)) (em : List (String × FileEdge))
    (f : CbFile) : List (String × FileEdge) :=
  match ((aget fd f.file).getD defaultFD).htmlScriptRefs with
  | none => em
  | some refs => refs.foldl (addScriptEdge f.file fd) em

def cbHtmlEdges (fd : List (String × FileData)) (files : List CbFile)
    (em0 : List (String × FileEdge)) : List (String × FileEdge) :=
  files.foldl (cbHtmlEdgesStep fd) em0

def cbIncoming (fd : List (String × FileData)) (files : List CbFile) :
    List (String × Nat) :=
  files.foldl
    (fun ic f =>
      ((aget fd f.file).getD defaultFD).imports.foldl
        (fun ic imp =>
          match imp.resolved with
          | some r => aset ic r ((aget ic r).getD 0 + 1)
          | none => ic)
        ic)
    []

def dedupFirst (l : List String) : List String :=
  l.foldl (fun acc x => if acc.contains x then acc else acc ++ [x]) []

def insertSorted (x : String) : List String → List String
  | [] => [x]
  | y :: ys => if leStr x y then x :: y :: ys else y :: insertSorted x ys

def sortStr (l : List String) : List String := l.foldr insertSorted []

/-- One run of `analyzeCodebase` over an already-scanned file list. -/
def analyzeCodebaseModel (root : List String) (fs : List (List String))
    (files : List CbFile) : CbGraph :=
  let fd := cbFileData root fs files
  let nodes0 := cbNodes fd files
  let edges := avalues (cbHtmlEdges fd files (cbImportEdges fd files))
  let ic := cbIncoming fd files
  let nodes := nodes0.map fun n => { n with incomingCount := (aget ic n.id).getD 0 }
  { nodes := nodes, edges := edges,
    folders := sortStr (dedupFirst (nodes.map FileNode.folder)),
    extensions := sortStr (dedupFirst (nodes.map FileNode.extension)) }

/-! ## analyzeSymbols -/

structure SEdge where
  source : String
  target : String
  type : String
  conditions : Option (List Cond)
deriving DecidableEq

structure SymFile where
  file : String
  ast : Option Js
  source : String

structure SymGraph where
  symbols : List Symbol
  edges : List SEdge
  files : List String

structure FlatImport where
  localName : String
  importedName : String
  fromFile : String
deriving DecidableEq

/-- `new Map(symbols.map(s => [s.name, s.id]))` — later entries overwrite. -/
def symbolNamesOf (symbols : List Symbol) : List (String × String) :=
  symbols.foldl (fun m s => aset m s.name s.id) []

/-- Index of method symbols by their bare method name. -/
def methodsByNameOf (symbols : List Symbol) : List (String × List Symbol) :=
  symbols.foldl
    (fun m s =>
      if s.type = "method" && containsDot s.name then
        let mn := lastDotSeg s.name
        aset m mn ((aget m mn).getD [] ++ [s])
      else m)
    []

/-- Callee resolution for intra-file call edges: exact name match first,
then the fuzzy class-method disambiguation. -/
def intraCalleeId (symbolNames : List (String × String))
    (methodsByName : List (String × List Symbol)) (call : CallFact) : Option String :=
  match aget symbolNames call.callee with
  | some cid => some cid
  | none =>
    match call.objectName with
    | none => none
    | some objectName =>
      match (aget methodsByName call.callee).getD [] with
      | [] => none
      | [c] => some c.id
      | c0 :: c1 :: rest =>
        match (c0 :: c1 :: rest).find?
            (fun c => c.name = objectName ++ "." ++ call.callee) with
        | some ex => some ex.id
        | none => some c0.id

/-- The `conditions` field is only attached when the list is non-empty. -/
def condOpt (conditions : List Cond) : Option (List Cond) :=
  if conditions.isEmpty then none else some conditions

def intraEdges (symbols : List Symbol) (calls : List CallFact) : List SEdge :=
  let symbolNames := symbolNamesOf symbols
  let methodsByName := methodsByNameOf symbols
  calls.flatMap fun call =>
    match aget symbolNames call.caller with
    | none => []
    | some callerId =>
      match intraCalleeId symbolNames methodsByName call with
      | none => []
      | some calleeId =>
        if callerId ≠ calleeId then [⟨callerId, calleeId, "calls", condOpt call.conditions⟩]
        else []

/-- Flatten resolved imports into `{localName, importedName, fromFile}`
records for cross-file resolution. -/
def flattenImports (imports : List Import) : List FlatImport :=
  imports.flatMap fun imp =>
    match imp.resolved with
    | none => []
    | some r =>
      imp.specifiers.map fun spec =>
        ⟨spec.name, if spec.type = "default" then "default" else spec.name, r⟩

structure Pass1Acc where
  allSymbols : List Symbol
  allEdges : List SEdge
  fileImports : List (String × List FlatImport)

/-- The per-file step of the first `analyzeSymbols` pass: per-file symbols,
intra-file call edges, and the flattened import table. -/
def symPass1Step (root : List String) (fs : List (List String)) (acc : Pass1Acc)
    (f : SymFile) : Pass1Acc :=
  match f.ast with
  | none => acc
  | some ast =>
    let es := extractSymbols ast f.file f.source
    let edges := intraEdges es.1 es.2
    let imports := extractImports ast (cbResolve root fs f.file)
    ⟨acc.allSymbols ++ es.1, acc.allEdges ++ edges,
     aset acc.fileImports f.file (flattenImports imports)⟩

def symPass1 (root : List String) (fs : List (List String)) (files : List SymFile) :
    Pass1Acc :=
  files.foldl (symPass1Step root fs) ⟨[], [], []⟩

/-- `symbolByFile[sym.file][sym.name] = sym.id` over all symbols. -/
def buildSymbolByFile (syms : List Symbol) : List (String × List (String × String)) :=
  syms.foldl
    (fun m s => aset m s.file (aset ((aget m s.file).getD []) s.name s.id))
    []

def importEdgesOf (sbf : List (String × List (String × String))) (file : String)
    (imports : List FlatImport) : List SEdge :=
  imports.flatMap fun imp =>
    match aget sbf imp.fromFile with
    | none => []
    | some tl =>
      match aget tl imp.importedName <|> aget tl imp.localName with
      | none => []
      | some targetId => [⟨file ++ "::" ++ imp.localName, targetId, "imports", none⟩]

/-- Cross-file call edges for one file's call facts: direct imported call,
method call on an imported object, or the permissive whole-repo method-name
scan. -/
def crossCallEdges (sbf : List (String × List (String × String))) (file : String)
    (localImportMap : List (String × FlatImport)) (calls : List CallFact) : List SEdge :=
  calls.flatMap fun call =>
    match (aget sbf file).bind (fun tl => aget tl call.caller) with
    | none => []
    | some callerId =>
      let conds := condOpt call.conditions
      match aget localImportMap call.callee with
      | some imp =>
        (match aget sbf imp.fromFile with
         | none => []
         | some tl =>
           match aget tl imp.importedName <|> aget tl imp.localName with
           | some targetId => [⟨callerId, targetId, "calls", conds⟩]
           | none => [])
      | none =>
        match call.objectName with
        | none => []
        | some objectName =>
          match aget localImportMap objectName with
          | some imp =>
            (match aget sbf imp.fromFile with
             | none => []
             | some tl =>
               match aget tl (imp.importedName ++ "." ++ call.callee) <|>
                     aget tl (imp.localName ++ "." ++ call.callee) <|>
                     aget tl call.callee with
               | some targetId => [⟨callerId, targetId, "calls", conds⟩]
               | none => [])
          | none =>
            sbf.flatMap fun tf =>
              tf.2.flatMap fun sym =>
                if jsEndsWith sym.1 ("." ++ call.callee) && containsDot sym.1 then
                  if sym.2 ≠ callerId then [⟨callerId, sym.2, "calls", conds⟩] else []
                else []

/-- Second pass of `analyzeSymbols`: import edges and cross-file call
edges (the file is re-parsed, which is pure, so the same extraction result
is reused). -/
def symPass2 (files : List SymFile)
    (sbf : List (String × List (String × String)))
    (fileImports : List (String × List FlatImport)) : List SEdge :=
  files.flatMap fun f =>
    let imports := (aget fileImports f.file).getD []
    let impEdges := importEdgesOf sbf f.file imports
    match f.ast with
    | none => impEdges
    | some ast =>
      let calls := (extractSymbols ast f.file f.source).2
      let localImportMap := imports.foldl (fun m imp => aset m imp.localName imp) []
      impEdges ++ crossCallEdges sbf f.file localImportMap calls

def edgeKey (e : SEdge) : String := e.source ++ "|" ++ e.target ++ "|" ++ e.type

/-- Push each new condition unless an entry with equal condition text and
branch is already present. -/
def mergeConds (exC : Option (List Cond)) (cs : List Cond) : List Cond :=
  cs.foldl
    (fun acc c =>
      if acc.any (fun ec => ec.condition = c.condition && ec.branch = c.branch) then acc
      else acc ++ [c])
    (exC.getD [])

/-- Deduplicate edges by `source|target|type`, merging condition lists. -/
def dedupEdges (edges : List SEdge) : List SEdge :=
  avalues
    (edges.foldl
      (fun m e =>
        match aget m (edgeKey e) with
        | none => aset m (edgeKey e) e
        | some ex =>
          match e.conditions with
          | none => m
          | some cs =>
            aset m (edgeKey e) { ex with conditions := some (mergeConds ex.conditions cs) })
      [])

/-- One run of `analyzeSymbols` over an already-scanned file list. -/
def analyzeSymbolsModel (root : List String) (fs : List (List String))
    (files : List SymFile) : SymGraph :=
  let acc := symPass1 root fs files
  let sbf := buildSymbolByFile acc.allSymbols
  let allEdges := acc.allEdges ++ symPass2 files sbf acc.fileImports
  let symbolIds := acc.allSymbols.map Symbol.id
  { symbols := acc.allSymbols,
    edges := (dedupEdges allEdges).filter
      (fun e => symbolIds.contains e.source && symbolIds.contains e.target),
    files := files.map SymFile.file }

/-! ## The /api/file path guard of the server -/

/-- The guard in `app.get("/api/file")`: resolve the requested relative
path against the analyzed root and test
`fullPath.startsWith(path.resolve(cachedTarget))` on the rendered strings. -/
def apiFileGuard (cachedTarget : List String) (relPath : String) : Bool :=
  jsStartsWith (renderAbs (pathResolve cachedTarget relPath)) (renderAbs cachedTarget)

/-- Modelled from the spec: "it must reject any resolved path that escapes
the root directory" — a resolved path is inside the root exactly when the
root's segments are a prefix of its segments. -/
def insideRoot (cachedTarget : List String) (relPath : String) : Bool :=
  cachedTarget.isPrefixOf (pathResolve cachedTarget relPath)

/-! ## Shared lemmas about the association-list folds -/

theorem mem_amodify_loose {α : Type} (m : List (String × α)) (k : String)
    (g : α → α) (p : String × α) (hp : p ∈ amodify m k g) :
    (∃ v, p = (k, g v) ∧ (k, v) ∈ m) ∨ p ∈ m := by
  induction m with
  | nil => simp [amodify] at hp
  | cons q rest ih =>
    obtain ⟨k0, v0⟩ := q
    by_cases h0 : k0 = k
    · subst h0
      have he : amodify ((k0, v0) :: rest) k0 g = (k0, g v0) :: rest := by simp [amodify]
      rw [he, List.mem_cons] at hp
      rcases hp with h | h
      · exact .inl ⟨v0, h, List.mem_cons_self _ _⟩
      · exact .inr (List.mem_cons_of_mem _ h)
    · have he : amodify ((k0, v0) :: rest) k g = (k0, v0) :: amodify rest k g := by
        simp [amodify, h0]
      rw [he, List.mem_cons] at hp
      rcases hp with h | h
      · exact .inr (h ▸ List.mem_cons_self _ _)
      · rcases ih h with ⟨v, hv, hm⟩ | h'
        · exact .inl ⟨v, hv, List.mem_cons_of_mem _ hm⟩
        · exact .inr (List.mem_cons_of_mem _ h')

theorem aget_amodify_ne {α : Type} (m : List (String × α)) (k k' : String)
    (g : α → α) (h : k ≠ k') : aget (amodify m k g) k' = aget m k' := by
  induction m with
  | nil => simp [amodify]
  | cons q rest ih =>
    obtain ⟨k0, v0⟩ := q
    by_cases h0 : k0 = k
    · subst h0; simp [amodify, aget, h]
    · by_cases h1 : k0 = k'
      · subst h1; simp [amodify, aget, h0]
      · simp [amodify, aget, h0, h1, ih]

theorem mem_amodify_distinct {α : Type} (m : List (String × α)) (k : String)
    (g : α → α) (hd : KeysDistinct m) (p : String × α) (hp : p ∈ amodify m k g) :
    (∃ v, p = (k, g v) ∧ (k, v) ∈ m) ∨ (p ∈ m ∧ p.1 ≠ k) := by
  induction m with
  | nil => simp [amodify] at hp
  | cons q rest ih =>
    obtain ⟨k0, v0⟩ := q
    rw [KeysDistinct, List.pairwise_cons] at hd
    by_cases h0 : k0 = k
    · subst h0
      have he : amodify ((k0, v0) :: rest) k0 g = (k0, g v0) :: rest := by simp [amodify]
      rw [he, List.mem_cons] at hp
      rcases hp with h | h
      · exact .inl ⟨v0, h, List.mem_cons_self _ _⟩
      · exact .inr ⟨List.mem_cons_of_mem _ h, fun hk => hd.1 p h hk.symm⟩
    · have he : amodify ((k0, v0) :: rest) k g = (k0, v0) :: amodify rest k g := by
        simp [amodify, h0]
      rw [he, List.mem_cons] at hp
      rcases hp with h | h
      · exact .inr ⟨h ▸ List.mem_cons_self _ _, h ▸ h0⟩
      · rcases ih hd.2 h with ⟨v, hv, hm⟩ | ⟨h', hk⟩
        · exact .inl ⟨v, hv, List.mem_cons_of_mem _ hm⟩
        · exact .inr ⟨List.mem_cons_of_mem _ h', hk⟩

theorem keysDistinct_amodify {α : Type} (m : List (String × α)) (k : String)
    (g : α → α) (hd : KeysDistinct m) : KeysDistinct (amodify m k g) := by
  induction m with
  | nil => simpa [amodify] using hd
  | cons q rest ih =>
    obtain ⟨k0, v0⟩ := q
    rw [KeysDistinct, List.pairwise_cons] at hd
    by_cases h0 : k0 = k
    · subst h0
      have he : amodify ((k0, v0) :: rest) k0 g = (k0, g v0) :: rest := by
        simp [amodify]
      rw [he, KeysDistinct, List.pairwise_cons]
      exact hd
    · have he : amodify ((k0, v0) :: rest) k g = (k0, v0) :: amodify rest k g := by
        simp [amodify, h0]
      rw [he, KeysDistinct, List.pairwise_cons]
      refine ⟨?_, ih hd.2⟩
      intro p hp
      rcases mem_amodify_loose rest k g p hp with ⟨v, hv, hm⟩ | h'
      · rw [hv]; exact hd.1 (k, v) hm
      · exact hd.1 p h'

theorem sortJoin_comm (a b : String) : sortJoin a b = sortJoin b a := by
  unfold sortJoin
  by_cases h1 : leStr a b = true
  · by_cases h2 : leStr b a = true
    · have := leStr_antisymm a b h1 h2
      subst this; simp
    · simp [h1, h2]
  · rcases leStr_total a b with h | h
    · exact absurd h h1
    · simp [h1, h]

/-! ## Concrete scenario inputs -/

def noFs : List (List String) := []

/-- The source of the conditional-call scenario file. -/
def src8 : String := "function foo() { if (cond) { bar(); } }\nfunction bar() {}"

/-- AST of `function foo() { if (cond) { bar(); } }` followed by
`function bar() {}`; the spans mirror the character offsets in `src8`
(the test `cond` occupies offsets 21–25). -/
def ast8 : Js :=
  .program
    [.functionDeclaration (some "foo") []
       [.ifStatement (.identifier "cond" ⟨some 21, some 25⟩)
          (.blockStatement
            [.expressionStatement
              (.callExpression (.identifier "bar" ⟨some 29, some 32⟩) []
                ⟨some 29, some 34⟩ (some ⟨1, 1⟩))
              ⟨some 29, some 35⟩]
            ⟨some 27, some 38⟩)
          none ⟨some 17, some 38⟩]
       (some ⟨1, 1⟩),
     .functionDeclaration (some "bar") [] [] (some ⟨2, 2⟩)]

def scenarioSymFiles : List SymFile := [⟨"a.js", some ast8, src8⟩]

/-! ## C9: CommonJS object-literal export extraction -/

/-- AST of a file containing `module.exports = { x, y }`. -/
def cjsObjectAst : Js :=
  .program
    [.expressionStatement
      (.assignmentExpression
        (.memberExpression (.identifier "module" noSpan) (some "exports") noSpan)
        (.objectExpression
          [.objectProperty (some "x") (.identifier "x" noSpan),
           .objectProperty (some "y") (.identifier "y" noSpan)]
          noSpan))
      noSpan]

/-- C9: export extraction applied to a file containing
`module.exports = { x, y }` produces exactly two export facts, named `x`
and `y`, each of the commonjs-named kind (the code's `"cjs"` tag). -/
theorem C9_commonjs_object_exports :
    extractExports cjsObjectAst = [⟨"x", "cjs"⟩, ⟨"y", "cjs"⟩] := by decide

/-! ## C4: the /api/file guard -/

/-- C4: the `startsWith` guard of the file-content endpoint accepts a
request whose resolved path escapes the analyzed root: with root
`/home/user/app`, the relative path `../app2/secret.txt` resolves to
`/home/user/app2/secret.txt`, which passes the string-prefix guard although
the root's segments are not a path prefix of it — the content of a file
outside the root would be served. -/
theorem C4_guard_accepts_escaping_path :
    apiFileGuard ["home", "user", "app"] "../app2/secret.txt" = true ∧
    insideRoot ["home", "user", "app"] "../app2/secret.txt" = false ∧
    pathResolve ["home", "user", "app"] "../app2/secret.txt" =
      ["home", "user", "app2", "secret.txt"] := by decide

/-! ## C1: no dangling symbol edges -/

/-- C1: in every run of the symbol graph builder, both endpoints of every
returned edge are ids of symbols in the returned symbol list (the final
validity filter drops any other edge). -/
theorem C1_symbol_edges_endpoints_known (root : List String)
    (fs : List (List String)) (files : List SymFile) (e : SEdge)
    (he : e ∈ (analyzeSymbolsModel root fs files).edges) :
    e.source ∈ (analyzeSymbolsModel root fs files).symbols.map Symbol.id ∧
    e.target ∈ (analyzeSymbolsModel root fs files).symbols.map Symbol.id := by
  simp only [analyzeSymbolsModel, List.mem_filter] at he
  have hp := he.2
  rw [Bool.and_eq_true] at hp
  simp only [analyzeSymbolsModel]
  constructor
  · simpa using hp.1
  · simpa using hp.2

/-- Witness for C1: the conditional-call scenario run returns one edge and
its endpoints are ids in the returned symbol list. -/
theorem C1_witness :
    (⟨"a.js::foo", "a.js::bar", "calls", some [⟨"cond", "if"⟩]⟩ : SEdge).source ∈
      (analyzeSymbolsModel ["root"] noFs scenarioSymFiles).symbols.map Symbol.id ∧
    (⟨"a.js::foo", "a.js::bar", "calls", some [⟨"cond", "if"⟩]⟩ : SEdge).target ∈
      (analyzeSymbolsModel ["root"] noFs scenarioSymFiles).symbols.map Symbol.id :=
  C1_symbol_edges_endpoints_known ["root"] noFs scenarioSymFiles _ (by decide)

/-! ## C6: condition-merging deduplication -/

theorem cond_eq_iff (a b : Cond) :
    a = b ↔ (a.condition = b.condition ∧ a.branch = b.branch) := by
  cases a; cases b; simp

theorem mem_mergeConds (exC : Option (List Cond)) (cs : List Cond) (c : Cond) :
    c ∈ mergeConds exC cs ↔ c ∈ exC.getD [] ∨ c ∈ cs := by
  rw [mergeConds]
  generalize exC.getD [] = base
  induction cs generalizing base with
  | nil => simp
  | cons c0 rest ih =>
    simp only [List.foldl_cons]
    by_cases hc : base.any fun ec => ec.condition = c0.condition && ec.branch = c0.branch
    · rw [if_pos hc, ih]
      have hc0 : c0 ∈ base := by
        rw [List.any_eq_true] at hc
        obtain ⟨ec, hec, hprop⟩ := hc
        rw [Bool.and_eq_true, decide_eq_true_iff, decide_eq_true_iff] at hprop
        have hce : ec = c0 := (cond_eq_iff ec c0).mpr hprop
        exact hce ▸ hec
      simp only [List.mem_cons]
      constructor
      · rintro (h | h)
        · exact .inl h
        · exact .inr (.inr h)
      · rintro (h | h | h)
        · exact .inl h
        · exact .inl (h ▸ hc0)
        · exact .inr h
    · rw [if_neg hc, ih]
      simp only [List.mem_append, List.mem_singleton, List.mem_cons]
      tauto

/-- The (conditionText, branch) set of an edge's condition annotations. -/
def condsOf (e : SEdge) : Finset Cond := (e.conditions.getD []).toFinset

/-- C6: edge deduplication is keyed by `source|target|kind`; merging two
edges with the same key yields a single edge whose condition set is the
union of the two condition sets, and the resulting condition set does not
depend on the order of the two inputs. -/
theorem C6_condition_merge_union_commutative (e1 e2 : SEdge)
    (hk : edgeKey e1 = edgeKey e2) :
    (dedupEdges [e1, e2]).map condsOf = [condsOf e1 ∪ condsOf e2] ∧
    (dedupEdges [e2, e1]).map condsOf = (dedupEdges [e1, e2]).map condsOf := by
  have step : ∀ (a b : SEdge), edgeKey a = edgeKey b →
      (dedupEdges [a, b]).map condsOf = [condsOf a ∪ condsOf b] := by
    intro a b hab
    simp only [dedupEdges, List.foldl_cons, List.foldl_nil, aget, aset]
    rw [← hab]
    simp only [aget, aset, if_pos rfl, if_true, eq_self_iff_true]
    cases hbc : b.conditions with
    | none =>
      simp only [avalues, List.map_cons, List.map_nil]
      have hb : condsOf b = ∅ := by simp [condsOf, hbc]
      rw [hb, Finset.union_empty]
    | some cs =>
      simp only [aset, if_pos rfl, if_true, eq_self_iff_true, avalues,
        List.map_cons, List.map_nil]
      congr 1
      apply Finset.ext
      intro c
      simp only [condsOf, hbc, Option.getD_some, Finset.mem_union, List.mem_toFinset,
        mem_mergeConds]
  refine ⟨step e1 e2 hk, ?_⟩
  rw [step e1 e2 hk, step e2 e1 hk.symm]
  congr 1
  exact Finset.union_comm _ _

/-- Witness for C6: two concrete edges with equal keys and different
conditions merge to the same condition set either way around. -/
theorem C6_witness :
    (dedupEdges [⟨"a", "b", "calls", some [⟨"x", "if"⟩]⟩,
                 ⟨"a", "b", "calls", some [⟨"y", "else"⟩]⟩]).map condsOf =
      [condsOf ⟨"a", "b", "calls", some [⟨"x", "if"⟩]⟩ ∪
       condsOf ⟨"a", "b", "calls", some [⟨"y", "else"⟩]⟩] ∧
    (dedupEdges [⟨"a", "b", "calls", some [⟨"y", "else"⟩]⟩,
                 ⟨"a", "b", "calls", some [⟨"x", "if"⟩]⟩]).map condsOf =
      (dedupEdges [⟨"a", "b", "calls", some [⟨"x", "if"⟩]⟩,
                   ⟨"a", "b", "calls", some [⟨"y", "else"⟩]⟩]).map condsOf :=
  C6_condition_merge_union_commutative _ _ rfl

/-! ## C10: single-character variable names are filtered -/

theorem symbolsAt_variable_name_length (rel : String) (nd : Js) (anc : List Js)
    (s : Symbol) (hs : s ∈ symbolsAt rel (nd, anc)) (ht : s.type = "variable") :
    2 ≤ s.name.length := by
  cases nd <;> simp only [symbolsAt] at hs
  case functionDeclaration id params body loc =>
    cases id with
    | none => simp at hs
    | some nm =>
      simp at hs
      rw [hs] at ht
      simp at ht
  case arrowFunctionExpression params body loc =>
    rcases anc with _ | ⟨h1, rest⟩
    · simp at hs
    · cases h1 <;> simp only at hs <;> try simp at hs
      case variableDeclarator idn pat initd dloc =>
        cases hj : jsT idn with
        | none => rw [hj] at hs; simp at hs
        | some nm =>
          rw [hj] at hs
          simp at hs
          rw [hs] at ht
          simp at ht
  case classDeclaration id sc members loc =>
    cases id with
    | none => simp at hs
    | some cn =>
      simp only [List.mem_append] at hs
      rcases hs with hs | hs
      · rw [List.mem_flatMap] at hs
        obtain ⟨m, hm, hsm⟩ := hs
        cases m <;> simp only at hsm <;> try simp at hsm
        next key mparams mbody mloc =>
          cases hj : jsT key with
          | none => rw [hj] at hsm; simp at hsm
          | some mn =>
            rw [hj] at hsm
            simp at hsm
            rw [hsm] at ht
            simp at ht
      · simp at hs
        rw [hs] at ht
        simp at ht
  case variableDeclaration ds loc =>
    by_cases hp : (parentIsProgram anc || isExportNamedParent anc) = true
    · rw [if_pos hp] at hs
      rw [List.mem_flatMap] at hs
      obtain ⟨d, hd, hsd⟩ := hs
      cases d <;> simp only at hsd <;> try simp at hsd
      next idn pat initd dloc =>
        cases hj : jsT idn with
        | none => rw [hj] at hsd; simp at hsd
        | some nm =>
          rw [hj] at hsd
          dsimp only at hsd
          by_cases hlen : nm.length < 2
          · rw [if_pos hlen] at hsd; simp at hsd
          · rw [if_neg hlen] at hsd
            by_cases hreq : isRequireCall initd = true
            · rw [if_pos hreq] at hsd; simp at hsd
            · rw [if_neg hreq] at hsd
              by_cases harr : isArrowInit initd = true
              · rw [if_pos harr] at hsd; simp at hsd
              · rw [if_neg harr] at hsd
                by_cases hfe : isFnExprInit initd = true
                · rw [if_pos hfe] at hsd; simp at hsd
                · rw [if_neg hfe] at hsd
                  simp at hsd
                  rw [hsd]
                  simpa using Nat.le_of_not_lt hlen
    · rw [if_neg hp] at hs
      simp at hs
  case tsTypeAliasDeclaration id loc =>
    cases id with
    | none => simp at hs
    | some nm =>
      simp at hs
      rw [hs] at ht
      simp at ht
  case tsInterfaceDeclaration id loc =>
    cases id with
    | none => simp at hs
    | some nm =>
      simp at hs
      rw [hs] at ht
      simp at ht
  all_goals simp at hs

theorem mem_symPass1_allSymbols (root : List String) (fs : List (List String))
    (l : List SymFile) :
    ∀ (acc : Pass1Acc) (s : Symbol),
      s ∈ (l.foldl (symPass1Step root fs) acc).allSymbols →
      s ∈ acc.allSymbols ∨
        ∃ f ∈ l, ∃ ast, f.ast = some ast ∧ s ∈ (extractSymbols ast f.file f.source).1 := by
  induction l with
  | nil => intro acc s h; exact .inl h
  | cons f rest ih =>
    intro acc s h
    simp only [List.foldl_cons] at h
    rcases ih _ s h with h' | h'
    · cases hast : f.ast with
      | none =>
        left
        simpa [symPass1Step, hast] using h'
      | some ast =>
        simp only [symPass1Step, hast] at h'
        rw [List.mem_append] at h'
        rcases h' with h' | h'
        · exact .inl h'
        · exact .inr ⟨f, List.mem_cons_self _ _, ast, hast, h'⟩
    · obtain ⟨g, hg, ast, hgast, hmem⟩ := h'
      exact .inr ⟨g, List.mem_cons_of_mem _ hg, ast, hgast, hmem⟩

/-- C10: in every run of the symbol graph builder, no variable-kind symbol
in the output has a name shorter than two characters (the
`d.id.name.length < 2` guard filters single-character declarations). -/
theorem C10_short_variable_names_filtered (root : List String)
    (fs : List (List String)) (files : List SymFile) (s : Symbol)
    (hs : s ∈ (analyzeSymbolsModel root fs files).symbols)
    (ht : s.type = "variable") : 2 ≤ s.name.length := by
  have hs' : s ∈ (symPass1 root fs files).allSymbols := by
    simpa [analyzeSymbolsModel] using hs
  rw [symPass1] at hs'
  rcases mem_symPass1_allSymbols root fs files ⟨[], [], []⟩ s hs' with h | h
  · simp at h
  · obtain ⟨f, _, ast, _, hmem⟩ := h
    simp only [extractSymbols] at hmem
    rw [List.mem_flatMap] at hmem
    obtain ⟨p, _, hps⟩ := hmem
    exact symbolsAt_variable_name_length f.file p.1 p.2 s hps ht

/-- Witness for C10: a concrete run with a three-character top-level
variable declaration contains a variable symbol, and the theorem applies
to it. -/
theorem C10_witness :
    2 ≤ (Symbol.name
      { id := "v.js::abc", name := "abc", type := "variable", file := "v.js",
        startLine := 1, endLine := 1, params := [], parent := none,
        exported := false, methods := [], superClass := none }).length :=
  C10_short_variable_names_filtered ["root"] noFs
    [⟨"v.js",
      some (.program
        [.variableDeclaration
          [.variableDeclarator (some "abc") false
            (some (.stringLiteral "5" noSpan)) (some ⟨1, 1⟩)]
          (some ⟨1, 1⟩)]),
      "const abc = \x225\x22;"⟩]
    _ (by decide) (by decide)

/-! ## C7: symbol id uniqueness -/

/-- AST of a file declaring `function foo` twice. -/
def duplicateFooAst : Js :=
  .program
    [.functionDeclaration (some "foo") [] [] (some ⟨1, 1⟩),
     .functionDeclaration (some "foo") [] [] (some ⟨2, 2⟩)]

def duplicateFooFiles : List SymFile :=
  [⟨"f.js", some duplicateFooAst, "function foo() {}\nfunction foo() {}"⟩]

/-- Counterexample to C7: a file with two declarations of `foo` yields a
returned symbol list whose ids are `["f.js::foo", "f.js::foo"]` — the id is
not unique in the returned list and the earlier entry is not overwritten. -/
theorem C7_counterexample_duplicate_ids :
    (analyzeSymbolsModel ["root"] noFs duplicateFooFiles).symbols.map Symbol.id =
      ["f.js::foo", "f.js::foo"] ∧
    ¬ ((analyzeSymbolsModel ["root"] noFs duplicateFooFiles).symbols.map Symbol.id).Nodup := by
  constructor
  · decide
  · decide

/-- `symbolByFile[f]?.[n]`. -/
def aget2 (m : List (String × List (String × String))) (f n : String) : Option String :=
  (aget m f).bind fun tl => aget tl n

def symbolByFileStep (m : List (String × List (String × String))) (s : Symbol) :
    List (String × List (String × String)) :=
  aset m s.file (aset ((aget m s.file).getD []) s.name s.id)

theorem buildSymbolByFile_eq_foldl (syms : List Symbol) :
    buildSymbolByFile syms = syms.foldl symbolByFileStep [] := rfl

theorem aget2_symbolByFileStep (m : List (String × List (String × String)))
    (s : Symbol) (f n : String) :
    aget2 (symbolByFileStep m s) f n =
      if s.file = f ∧ s.name = n then some s.id else aget2 m f n := by
  by_cases hf : s.file = f
  · subst hf
    by_cases hn : s.name = n
    · subst hn
      rw [if_pos ⟨rfl, rfl⟩]
      simp [aget2, symbolByFileStep, aget_aset_self]
    · rw [if_neg (by simp [hn])]
      simp only [aget2, symbolByFileStep, aget_aset_self, Option.some_bind]
      rw [aget_aset_ne _ _ _ _ hn]
      cases hm : aget m s.file with
      | none => simp [hm, aget]
      | some tl => simp [hm]
  · rw [if_neg (by simp [hf])]
    simp only [aget2, symbolByFileStep]
    rw [aget_aset_ne _ _ _ _ hf]

theorem getLast?_cons_ne_nil {α : Type} (a : α) (l : List α) (h : l ≠ []) :
    (a :: l).getLast? = l.getLast? := by
  cases l with
  | nil => exact absurd rfl h
  | cons b bs => simp [List.getLast?_cons_cons]

theorem aget2_foldl_symbolByFile (syms : List Symbol) :
    ∀ (m : List (String × List (String × String))) (f n : String),
      aget2 (syms.foldl symbolByFileStep m) f n =
        match (syms.filter fun s => s.file = f && s.name = n).getLast? with
        | some s => some s.id
        | none => aget2 m f n := by
  induction syms with
  | nil => intro m f n; simp
  | cons s rest ih =>
    intro m f n
    simp only [List.foldl_cons]
    rw [ih]
    by_cases hs : (s.file = f && s.name = n) = true
    · rw [Bool.and_eq_true, decide_eq_true_iff, decide_eq_true_iff] at hs
      cases hlast : (rest.filter fun s => s.file = f && s.name = n).getLast? with
      | some t =>
        have hne : (rest.filter fun s => s.file = f && s.name = n) ≠ [] := by
          intro he
          rw [he] at hlast
          simp at hlast
        have : ((s :: rest).filter fun s => s.file = f && s.name = n).getLast? = some t := by
          rw [List.filter_cons, if_pos (by simp [hs.1, hs.2])]
          rw [getLast?_cons_ne_nil _ _ hne]
          exact hlast
        rw [this]
      | none =>
        have he : (rest.filter fun s => s.file = f && s.name = n) = [] := by
          rwa [← List.getLast?_eq_none_iff]
        have : ((s :: rest).filter fun s => s.file = f && s.name = n).getLast? = some s := by
          rw [List.filter_cons, if_pos (by simp [hs.1, hs.2]), he]
          rfl
        rw [this, aget2_symbolByFileStep, if_pos ⟨hs.1, hs.2⟩]
    · have hfe : ((s :: rest).filter fun s => s.file = f && s.name = n) =
          rest.filter fun s => s.file = f && s.name = n := by
        rw [List.filter_cons, if_neg hs]
      rw [hfe]
      cases hlast : (rest.filter fun s => s.file = f && s.name = n).getLast? with
      | some t => rfl
      | none =>
        have hcond : ¬ (s.file = f ∧ s.name = n) := by
          intro hc
          exact hs (by simp [hc.1, hc.2])
        simp only [aget2_symbolByFileStep, if_neg hcond]

/-- C7 (amended): ids repeat in the returned symbol list when the same id
is produced by several declarations, and the per-(file, name) index used
for edge resolution retains exactly the last occurrence. -/
theorem C7_lookup_keeps_last_occurrence (syms : List Symbol) (f n : String) :
    aget2 (buildSymbolByFile syms) f n =
      ((syms.filter fun s => s.file = f && s.name = n).getLast?).map Symbol.id := by
  rw [buildSymbolByFile_eq_foldl, aget2_foldl_symbolByFile]
  cases (syms.filter fun s => s.file = f && s.name = n).getLast? with
  | some t => rfl
  | none => simp [aget2, aget]

/-! ## C8: the conditional-call scenario -/

theorem truncate40_length (l : List Char) : (truncate40 l).length ≤ 40 := by
  rw [truncate40]
  by_cases h : 40 < l.length
  · rw [if_pos h]
    simp [List.length_take]
  · rw [if_neg h]
    omega

theorem getEnclosingConditions_length (cs ce : Option Nat) (src : String)
    (chain : List Js) : (getEnclosingConditions cs ce src chain).length ≤ 1 := by
  induction chain with
  | nil => simp [getEnclosingConditions]
  | cons scope rest ih =>
    cases scope <;> simp only [getEnclosingConditions] <;> try exact ih
    case ifStatement t c alt sp =>
      cases jsT (conditionToString t.startPos t.endPos src) <;> simp [ih]
    case conditionalExpression t c alt sp =>
      cases jsT (conditionToString t.startPos t.endPos src) <;> simp [ih]
    case functionDeclaration id params body loc => simp
    case arrowFunctionExpression params body loc => simp
    case functionExpression body loc => simp
    case classMethod key params body loc => simp

theorem conditionToString_length (sp ep : Option Nat) (src : String) :
    ((conditionToString sp ep src).getD "").length ≤ 40 := by
  by_cases h : src = ""
  · simp [conditionToString, h]
  · cases sp with
    | none => simp [conditionToString, h]
    | some a =>
      cases ep with
      | none => simp [conditionToString, h]
      | some b =>
        simp only [conditionToString, if_neg h, Option.getD_some]
        exact truncate40_length _

/-- C8: a call inside `if (cond) { bar(); }` inside `foo`, with `foo` and
`bar` both known symbols, yields exactly one `calls` edge `foo → bar`
annotated with the single condition `{condition: "cond", branch: "if"}`;
the condition walk records at most the innermost conditional, and the
rendered condition text is whitespace-collapsed and at most 40 characters. -/
theorem C8_if_branch_call_edge :
    (analyzeSymbolsModel ["root"] noFs scenarioSymFiles).edges =
      [⟨"a.js::foo", "a.js::bar", "calls", some [⟨"cond", "if"⟩]⟩] ∧
    (∀ (cs ce : Option Nat) (src : String) (chain : List Js),
      (getEnclosingConditions cs ce src chain).length ≤ 1) ∧
    (∀ (sp ep : Option Nat) (src : String),
      ((conditionToString sp ep src).getD "").length ≤ 40) := by
  refine ⟨by decide, ?_, ?_⟩
  · intro cs ce src chain
    exact getEnclosingConditions_length cs ce src chain
  · intro sp ep src
    exact conditionToString_length sp ep src

/-! ## Provenance lemmas for the file-graph accumulators -/

theorem aget_eq_some_mem {α : Type} (m : List (String × α)) (k : String) (v : α)
    (h : aget m k = some v) : (k, v) ∈ m := by
  induction m with
  | nil => simp [aget] at h
  | cons q rest ih =>
    obtain ⟨k0, v0⟩ := q
    by_cases h0 : k0 = k
    · subst h0
      have he : aget ((k0, v0) :: rest) k0 = some v0 := by simp [aget]
      have hv : v0 = v := by
        have := he.symm.trans h
        exact Option.some.inj this
      exact hv ▸ List.mem_cons_self _ _
    · simp only [aget, if_neg h0] at h
      exact List.mem_cons_of_mem _ (ih h)

theorem mem_cbPass1Step (acc : List (String × FileData)) (f : CbFile)
    (p : String × FileData) (hp : p ∈ cbPass1Step acc f) :
    (p.1 = f.file ∧ p.2.imports = []) ∨ p ∈ acc := by
  rw [cbPass1Step] at hp
  by_cases hh : isHtmlExt (extname f.file) = true
  · rw [if_pos hh] at hp
    rcases mem_aset _ _ _ _ hp with h | h
    · exact .inl (by rw [h]; exact ⟨rfl, rfl⟩)
    · exact .inr h
  · rw [if_neg hh] at hp
    cases hast : f.ast with
    | none =>
      rw [hast] at hp
      rcases mem_aset _ _ _ _ hp with h | h
      · exact .inl (by rw [h]; exact ⟨rfl, rfl⟩)
      · exact .inr h
    | some ast =>
      rw [hast] at hp
      rcases mem_aset _ _ _ _ hp with h | h
      · exact .inl (by rw [h]; exact ⟨rfl, rfl⟩)
      · exact .inr h

theorem mem_cbPass1 (l : List CbFile) :
    ∀ (acc : List (String × FileData)) (p : String × FileData),
      p ∈ l.foldl cbPass1Step acc →
      ((∃ f ∈ l, p.1 = f.file) ∧ p.2.imports = []) ∨ p ∈ acc := by
  induction l with
  | nil => intro acc p h; exact .inr h
  | cons f rest ih =>
    intro acc p h
    simp only [List.foldl_cons] at h
    rcases ih _ p h with ⟨⟨g, hg, hp1⟩, hp2⟩ | h'
    · exact .inl ⟨⟨g, List.mem_cons_of_mem _ hg, hp1⟩, hp2⟩
    · rcases mem_cbPass1Step acc f p h' with ⟨h1, h2⟩ | h''
      · exact .inl ⟨⟨f, List.mem_cons_self _ _, h1⟩, h2⟩
      · exact .inr h''

theorem mem_cbPass2Step (root : List String) (fs : List (List String))
    (fd : List (String × FileData)) (f : CbFile) (p : String × FileData)
    (hp : p ∈ cbPass2Step root fs fd f) :
    (∃ q ∈ fd, p.1 = q.1 ∧ p.2.htmlScriptRefs = q.2.htmlScriptRefs ∧
      (p.2.imports = q.2.imports ∨ p.2.imports = cbImportsOf root fs f)) := by
  rw [cbPass2Step] at hp
  by_cases hh : isHtmlExt (extname f.file) = true
  · rw [if_pos hh] at hp
    exact ⟨p, hp, rfl, rfl, .inl rfl⟩
  · rw [if_neg hh] at hp
    cases hast : f.ast with
    | none =>
      rw [hast] at hp
      exact ⟨p, hp, rfl, rfl, .inl rfl⟩
    | some ast =>
      rw [hast] at hp
      rcases mem_amodify_loose _ _ _ p hp with ⟨v, hv, hm⟩ | h'
      · refine ⟨(f.file, v), hm, ?_, ?_, ?_⟩
        · rw [hv]
        · rw [hv]
        · right
          rw [hv]
          simp [cbImportsOf, hast]
      · exact ⟨p, h', rfl, rfl, .inl rfl⟩

theorem mem_cbPass2 (root : List String) (fs : List (List String)) (l : List CbFile) :
    ∀ (fd0 : List (String × FileData)) (p : String × FileData),
      p ∈ l.foldl (cbPass2Step root fs) fd0 →
      ∃ q ∈ fd0, p.1 = q.1 ∧ p.2.htmlScriptRefs = q.2.htmlScriptRefs ∧
        (p.2.imports = q.2.imports ∨ ∃ f ∈ l, p.2.imports = cbImportsOf root fs f) := by
  induction l with
  | nil => intro fd0 p h; exact ⟨p, h, rfl, rfl, .inl rfl⟩
  | cons f rest ih =>
    intro fd0 p h
    simp only [List.foldl_cons] at h
    obtain ⟨q, hq, h1, h2, h3⟩ := ih _ p h
    obtain ⟨q', hq', h1', h2', h3'⟩ := mem_cbPass2Step root fs fd0 f q hq
    refine ⟨q', hq', h1.trans h1', h2.trans h2', ?_⟩
    rcases h3 with h3 | ⟨g, hg, h3⟩
    · rcases h3' with h3' | h3'
      · exact .inl (h3.trans h3')
      · exact .inr ⟨f, List.mem_cons_self _ _, h3.trans h3'⟩
    · exact .inr ⟨g, List.mem_cons_of_mem _ hg, h3⟩

/-- Every entry of the assembled file table stems from a scanned file, and
its import list is the extraction result of some scanned file. -/
theorem cbFileData_key_provenance (root : List String) (fs : List (List String))
    (files : List CbFile) (p : String × FileData)
    (hp : p ∈ cbFileData root fs files) : ∃ f ∈ files, p.1 = f.file := by
  obtain ⟨q, hq, h1, _, _⟩ := mem_cbPass2 root fs files _ p hp
  rcases mem_cbPass1 files [] q hq with ⟨⟨g, hg, hq1⟩, _⟩ | h
  · exact ⟨g, hg, h1.trans hq1⟩
  · simp at h

theorem cbFileData_imports_provenance (root : List String) (fs : List (List String))
    (files : List CbFile) (p : String × FileData)
    (hp : p ∈ cbFileData root fs files) :
    p.2.imports = [] ∨ ∃ f ∈ files, p.2.imports = cbImportsOf root fs f := by
  obtain ⟨q, hq, _, _, h3⟩ := mem_cbPass2 root fs files _ p hp
  rcases mem_cbPass1 files [] q hq with ⟨_, hq2⟩ | h
  · rcases h3 with h3 | h3
    · exact .inl (h3.trans hq2)
    · exact .inr h3
  · simp at h

/-! ## C2: file-edge endpoints -/

/-- Both endpoints of a file edge name scanned files. -/
def EdgeEndpointsIn (files : List CbFile) (e : FileEdge) : Prop :=
  (∃ f ∈ files, e.source = f.file) ∧ (∃ f ∈ files, e.target = f.file)

theorem addImportEdge_endpoints (files : List CbFile) (file : String)
    (fd : List (String × FileData)) (em : List (String × FileEdge)) (imp : Import)
    (hfile : ∃ f ∈ files, file = f.file)
    (hfd : ∀ r d, aget fd r = some d → ∃ f ∈ files, r = f.file)
    (hem : ∀ p ∈ em, EdgeEndpointsIn files p.2) :
    ∀ p ∈ addImportEdge file fd em imp, EdgeEndpointsIn files p.2 := by
  intro p hp
  rw [addImportEdge] at hp
  cases hres : imp.resolved with
  | none => rw [hres] at hp; exact hem p hp
  | some r =>
    rw [hres] at hp
    dsimp only at hp
    by_cases hr : (aget fd r).isSome
    · rw [if_pos hr] at hp
      have hrmem : ∃ f ∈ files, r = f.file := by
        cases hget : aget fd r with
        | none => rw [hget] at hr; simp at hr
        | some d => exact hfd r d hget
      have hem1 : ∀ p ∈ (if (aget em (sortJoin file r)).isSome then em
          else aset em (sortJoin file r) ⟨file, r, 0, []⟩), EdgeEndpointsIn files p.2 := by
        intro q hq
        by_cases hk : (aget em (sortJoin file r)).isSome
        · rw [if_pos hk] at hq; exact hem q hq
        · rw [if_neg hk] at hq
          rcases mem_aset _ _ _ _ hq with h | h
          · rw [h]; exact ⟨hfile, hrmem⟩
          · exact hem q h
      rcases mem_amodify_loose _ _ _ p hp with ⟨v, hv, hm⟩ | h'
      · have := hem1 _ hm
        rw [hv]
        exact this
      · exact hem1 p h'
    · rw [if_neg hr] at hp
      exact hem p hp

theorem addScriptEdge_endpoints (files : List CbFile) (file : String)
    (fd : List (String × FileData)) (em : List (String × FileEdge)) (sf : String)
    (hfile : ∃ f ∈ files, file = f.file)
    (hfd : ∀ r d, aget fd r = some d → ∃ f ∈ files, r = f.file)
    (hem : ∀ p ∈ em, EdgeEndpointsIn files p.2) :
    ∀ p ∈ addScriptEdge file fd em sf, EdgeEndpointsIn files p.2 := by
  intro p hp
  rw [addScriptEdge] at hp
  dsimp only at hp
  by_cases hr : (aget fd sf).isSome
  · rw [if_pos hr] at hp
    have hrmem : ∃ f ∈ files, sf = f.file := by
      cases hget : aget fd sf with
      | none => rw [hget] at hr; simp at hr
      | some d => exact hfd sf d hget
    have hem1 : ∀ p ∈ (if (aget em (sortJoin file sf)).isSome then em
        else aset em (sortJoin file sf) ⟨file, sf, 0, []⟩), EdgeEndpointsIn files p.2 := by
      intro q hq
      by_cases hk : (aget em (sortJoin file sf)).isSome
      · rw [if_pos hk] at hq; exact hem q hq
      · rw [if_neg hk] at hq
        rcases mem_aset _ _ _ _ hq with h | h
        · rw [h]; exact ⟨hfile, hrmem⟩
        · exact hem q h
    rcases mem_amodify_loose _ _ _ p hp with ⟨v, hv, hm⟩ | h'
    · have := hem1 _ hm
      rw [hv]
      exact this
    · exact hem1 p h'
  · rw [if_neg hr] at hp
    exact hem p hp

theorem foldl_preserves {α β : Type} (step : α → β → α) (P : α → Prop)
    (l : List β) (pres : ∀ a b, b ∈ l → P a → P (step a b)) :
    ∀ a, P a → P (l.foldl step a) := by
  induction l with
  | nil => intro a h; exact h
  | cons x xs ih =>
    intro a h
    simp only [List.foldl_cons]
    exact ih (fun a' b hb => pres a' b (List.mem_cons_of_mem _ hb))
      _ (pres a x (List.mem_cons_self _ _) h)

theorem cbEdges_endpoints (root : List String) (fs : List (List String))
    (files : List CbFile) (p : String × FileEdge)
    (hp : p ∈ cbHtmlEdges (cbFileData root fs files) files
      (cbImportEdges (cbFileData root fs files) files)) :
    EdgeEndpointsIn files p.2 := by
  set fd := cbFileData root fs files with hfd_def
  have hfd : ∀ r d, aget fd r = some d → ∃ f ∈ files, r = f.file := by
    intro r d hget
    exact cbFileData_key_provenance root fs files (r, d) (aget_eq_some_mem _ _ _ hget)
  have h1 : ∀ q ∈ cbImportEdges fd files, EdgeEndpointsIn files q.2 := by
    rw [cbImportEdges]
    refine foldl_preserves (cbImportEdgesStep fd)
      (fun em => ∀ q ∈ em, EdgeEndpointsIn files q.2) files ?_ [] ?_
    · intro em f hf hem
      rw [cbImportEdgesStep]
      refine foldl_preserves (addImportEdge f.file fd)
        (fun em => ∀ q ∈ em, EdgeEndpointsIn files q.2) _ ?_ em hem
      intro em' imp _ hem'
      exact addImportEdge_endpoints files f.file fd em' imp ⟨f, hf, rfl⟩ hfd hem'
    · intro q hq; simp at hq
  have h2 : ∀ q ∈ cbHtmlEdges fd files (cbImportEdges fd files),
      EdgeEndpointsIn files q.2 := by
    rw [cbHtmlEdges]
    refine foldl_preserves (cbHtmlEdgesStep fd)
      (fun em => ∀ q ∈ em, EdgeEndpointsIn files q.2) files ?_ _ h1
    intro em f hf hem
    rw [cbHtmlEdgesStep]
    cases ((aget fd f.file).getD defaultFD).htmlScriptRefs with
    | none => exact hem
    | some refs =>
      refine foldl_preserves (addScriptEdge f.file fd)
        (fun em => ∀ q ∈ em, EdgeEndpointsIn files q.2) refs ?_ em hem
      intro em' sf _ hem'
      exact addScriptEdge_endpoints files f.file fd em' sf ⟨f, hf, rfl⟩ hfd hem'
  exact h2 p hp

theorem cb_nodes_ids (root : List String) (fs : List (List String))
    (files : List CbFile) :
    (analyzeCodebaseModel root fs files).nodes.map FileNode.id =
      files.map CbFile.file := by
  simp only [analyzeCodebaseModel, cbNodes, List.map_map]
  rfl

/-- C2 (amended): both endpoints of every returned file edge are ids of
nodes in the returned node list.  (Endpoint distinctness does not hold: a
file that imports itself produces a self-loop, see the counterexample.) -/
theorem C2_file_edge_endpoints_present (root : List String)
    (fs : List (List String)) (files : List CbFile) (e : FileEdge)
    (he : e ∈ (analyzeCodebaseModel root fs files).edges) :
    e.source ∈ (analyzeCodebaseModel root fs files).nodes.map FileNode.id ∧
    e.target ∈ (analyzeCodebaseModel root fs files).nodes.map FileNode.id := by
  have hm : ∃ p ∈ cbHtmlEdges (cbFileData root fs files) files
      (cbImportEdges (cbFileData root fs files) files), p.2 = e := by
    simp only [analyzeCodebaseModel, avalues] at he
    rw [List.mem_map] at he
    obtain ⟨p, hp, hpe⟩ := he
    exact ⟨p, hp, hpe⟩
  obtain ⟨p, hp, hpe⟩ := hm
  have hend := cbEdges_endpoints root fs files p hp
  rw [hpe] at hend
  rw [cb_nodes_ids]
  obtain ⟨⟨f1, hf1, hs⟩, ⟨f2, hf2, ht⟩⟩ := hend
  constructor
  · rw [hs]; exact List.mem_map_of_mem _ hf1
  · rw [ht]; exact List.mem_map_of_mem _ hf2

/-- AST of a file containing `const a = require("./a.js");`. -/
def selfRequireAst : Js :=
  .program
    [.variableDeclaration
      [.variableDeclarator (some "a") false
        (some (.callExpression (.identifier "require" noSpan)
          [.stringLiteral "./a.js" noSpan] noSpan (some ⟨1, 1⟩)))
        (some ⟨1, 1⟩)]
      (some ⟨1, 1⟩)]

def selfRequireFiles : List CbFile :=
  [⟨"a.js", "const a = require(\x22./a.js\x22);", some selfRequireAst, []⟩]

def selfRequireFs : List (List String) := [["root", "a.js"]]

/-- Counterexample to C2: a file that requires itself resolves to itself
(the file exists on disk, and `resolveImport` does not require the target
to be distinct), so the run returns a self-loop edge whose two endpoints
are equal. -/
theorem C2_counterexample_self_loop :
    (analyzeCodebaseModel ["root"] selfRequireFs selfRequireFiles).edges =
      [⟨"a.js", "a.js", 1, ["default"]⟩] ∧
    ¬ (∀ e ∈ (analyzeCodebaseModel ["root"] selfRequireFs selfRequireFiles).edges,
        e.source ≠ e.target) := by
  constructor
  · decide
  · decide

/-- AST of a file containing `import "./b.js";` (a bare side-effect import
with zero specifiers). -/
def bareImportAst : Js := .program [.importDeclaration "./b.js" []]

def bareImportFiles : List CbFile :=
  [⟨"a.js", "import \x22./b.js\x22;", some bareImportAst, []⟩,
   ⟨"b.js", "", some (.program []), []⟩]

def bareImportFs : List (List String) := [["root", "a.js"], ["root", "b.js"]]

/-- Witness for C2: in the bare-import run the single returned edge has
both endpoints among the node ids. -/
theorem C2_witness :
    (⟨"a.js", "b.js", 0, []⟩ : FileEdge).source ∈
      (analyzeCodebaseModel ["root"] bareImportFs bareImportFiles).nodes.map FileNode.id ∧
    (⟨"a.js", "b.js", 0, []⟩ : FileEdge).target ∈
      (analyzeCodebaseModel ["root"] bareImportFs bareImportFiles).nodes.map FileNode.id :=
  C2_file_edge_endpoints_present ["root"] bareImportFs bareImportFiles _ (by decide)

/-! ## C5: one edge per unordered pair; edge weights -/

/-- Two file edges connect the same unordered pair of files. -/
def samePair (e1 e2 : FileEdge) : Prop :=
  (e1.source = e2.source ∧ e1.target = e2.target) ∨
  (e1.source = e2.target ∧ e1.target = e2.source)

theorem samePair_sortJoin (e1 e2 : FileEdge) (h : samePair e1 e2) :
    sortJoin e1.source e1.target = sortJoin e2.source e2.target := by
  rcases h with ⟨h1, h2⟩ | ⟨h1, h2⟩
  · rw [h1, h2]
  · rw [h1, h2, sortJoin_comm]

/-- The canonical-key invariant of the edge accumulator: keys are distinct
and each key is the sorted pair key of its edge's endpoints. -/
def EMKeyInv (em : List (String × FileEdge)) : Prop :=
  KeysDistinct em ∧ ∀ p ∈ em, p.1 = sortJoin p.2.source p.2.target

theorem addImportEdge_keyinv (file : String) (fd : List (String × FileData))
    (em : List (String × FileEdge)) (imp : Import) (h : EMKeyInv em) :
    EMKeyInv (addImportEdge file fd em imp) := by
  rw [addImportEdge]
  cases imp.resolved with
  | none => exact h
  | some r =>
    dsimp only
    by_cases hr : (aget fd r).isSome
    · rw [if_pos hr]
      have h1 : EMKeyInv (if (aget em (sortJoin file r)).isSome then em
          else aset em (sortJoin file r) ⟨file, r, 0, []⟩) := by
        by_cases hk : (aget em (sortJoin file r)).isSome
        · rw [if_pos hk]; exact h
        · rw [if_neg hk]
          refine ⟨keysDistinct_aset _ _ _ h.1, ?_⟩
          intro p hp
          rcases mem_aset _ _ _ _ hp with hq | hq
          · rw [hq]
          · exact h.2 p hq
      refine ⟨keysDistinct_amodify _ _ _ h1.1, ?_⟩
      intro p hp
      rcases mem_amodify_loose _ _ _ p hp with ⟨v, hv, hm⟩ | h'
      · rw [hv]
        exact h1.2 (sortJoin file r, v) hm
      · exact h1.2 p h'
    · rw [if_neg hr]; exact h

theorem addScriptEdge_keyinv (file : String) (fd : List (String × FileData))
    (em : List (String × FileEdge)) (sf : String) (h : EMKeyInv em) :
    EMKeyInv (addScriptEdge file fd em sf) := by
  rw [addScriptEdge]
  dsimp only
  by_cases hr : (aget fd sf).isSome
  · rw [if_pos hr]
    have h1 : EMKeyInv (if (aget em (sortJoin file sf)).isSome then em
        else aset em (sortJoin file sf) ⟨file, sf, 0, []⟩) := by
      by_cases hk : (aget em (sortJoin file sf)).isSome
      · rw [if_pos hk]; exact h
      · rw [if_neg hk]
        refine ⟨keysDistinct_aset _ _ _ h.1, ?_⟩
        intro p hp
        rcases mem_aset _ _ _ _ hp with hq | hq
        · rw [hq]
        · exact h.2 p hq
    refine ⟨keysDistinct_amodify _ _ _ h1.1, ?_⟩
    intro p hp
    rcases mem_amodify_loose _ _ _ p hp with ⟨v, hv, hm⟩ | h'
    · rw [hv]
      exact h1.2 (sortJoin file sf, v) hm
    · exact h1.2 p h'
  · rw [if_neg hr]; exact h

theorem cbEdges_keyinv (root : List String) (fs : List (List String))
    (files : List CbFile) :
    EMKeyInv (cbHtmlEdges (cbFileData root fs files) files
      (cbImportEdges (cbFileData root fs files) files)) := by
  set fd := cbFileData root fs files
  have h1 : EMKeyInv (cbImportEdges fd files) := by
    rw [cbImportEdges]
    refine foldl_preserves (cbImportEdgesStep fd) EMKeyInv files ?_ []
      ⟨List.Pairwise.nil, by intro p hp; simp at hp⟩
    intro em f _ hem
    rw [cbImportEdgesStep]
    exact foldl_preserves (addImportEdge f.file fd) EMKeyInv _
      (fun em' imp _ h => addImportEdge_keyinv f.file fd em' imp h) em hem
  rw [cbHtmlEdges]
  refine foldl_preserves (cbHtmlEdgesStep fd) EMKeyInv files ?_ _ h1
  intro em f _ hem
  rw [cbHtmlEdgesStep]
  cases ((aget fd f.file).getD defaultFD).htmlScriptRefs with
  | none => exact hem
  | some refs =>
    exact foldl_preserves (addScriptEdge f.file fd) EMKeyInv refs
      (fun em' sf _ h => addScriptEdge_keyinv f.file fd em' sf h) em hem

theorem emKeyInv_pairwise (em : List (String × FileEdge)) (h : EMKeyInv em) :
    (avalues em).Pairwise (fun a b => ¬ samePair a b) := by
  rw [avalues, List.pairwise_map]
  refine h.1.imp_of_mem ?_
  intro p q hp hq hne hsp
  apply hne
  rw [h.2 p hp, h.2 q hq]
  exact samePair_sortJoin p.2 q.2 hsp

theorem aget_none_not_mem {α : Type} (m : List (String × α)) (k : String)
    (h : aget m k = none) (v : α) : (k, v) ∉ m := by
  induction m with
  | nil => simp
  | cons q rest ih =>
    obtain ⟨k0, v0⟩ := q
    by_cases h0 : k0 = k
    · subst h0; simp [aget] at h
    · simp only [aget, if_neg h0] at h
      simp only [List.mem_cons]
      rintro (hq | hq)
      · exact h0 (congrArg Prod.fst hq).symm
      · exact ih h hq

/-- Weight invariant: every accumulated edge has weight at least one. -/
def EMWeightInv (em : List (String × FileEdge)) : Prop :=
  KeysDistinct em ∧ ∀ p ∈ em, 1 ≤ p.2.weight

theorem addImportEdge_weightinv (file : String) (fd : List (String × FileData))
    (em : List (String × FileEdge)) (imp : Import)
    (hlen : imp.resolved.isSome → 1 ≤ imp.specifiers.length)
    (h : EMWeightInv em) : EMWeightInv (addImportEdge file fd em imp) := by
  rw [addImportEdge]
  cases hres : imp.resolved with
  | none => exact h
  | some r =>
    dsimp only
    have hlen' : 1 ≤ imp.specifiers.length := hlen (by rw [hres]; rfl)
    by_cases hr : (aget fd r).isSome
    · rw [if_pos hr]
      by_cases hk : (aget em (sortJoin file r)).isSome
      · rw [if_pos hk]
        refine ⟨keysDistinct_amodify _ _ _ h.1, ?_⟩
        intro p hp
        rcases mem_amodify_distinct _ _ _ h.1 p hp with ⟨v, hv, hm⟩ | ⟨h', _⟩
        · rw [hv]
          have := h.2 _ hm
          simp only
          omega
        · exact h.2 p h'
      · rw [if_neg hk]
        have hKD1 := keysDistinct_aset em (sortJoin file r) (⟨file, r, 0, []⟩ : FileEdge) h.1
        refine ⟨keysDistinct_amodify _ _ _ hKD1, ?_⟩
        intro p hp
        rcases mem_amodify_distinct _ _ _ hKD1 p hp with ⟨v, hv, hm⟩ | ⟨h', hpk⟩
        · rcases mem_aset _ _ _ _ hm with hq | hq
          · have hv0 : v = ⟨file, r, 0, []⟩ := congrArg Prod.snd hq
            rw [hv, hv0]
            simpa using hlen'
          · have := h.2 _ hq
            rw [hv]
            simp only
            omega
        · rcases mem_aset _ _ _ _ h' with hq | hq
          · exact absurd (congrArg Prod.fst hq) hpk
          · exact h.2 p hq
    · rw [if_neg hr]; exact h

theorem addScriptEdge_weightinv (file : String) (fd : List (String × FileData))
    (em : List (String × FileEdge)) (sf : String)
    (h : EMWeightInv em) : EMWeightInv (addScriptEdge file fd em sf) := by
  rw [addScriptEdge]
  dsimp only
  by_cases hr : (aget fd sf).isSome
  · rw [if_pos hr]
    by_cases hk : (aget em (sortJoin file sf)).isSome
    · rw [if_pos hk]
      refine ⟨keysDistinct_amodify _ _ _ h.1, ?_⟩
      intro p hp
      rcases mem_amodify_distinct _ _ _ h.1 p hp with ⟨v, hv, hm⟩ | ⟨h', _⟩
      · rw [hv]
        have := h.2 _ hm
        simp only
        omega
      · exact h.2 p h'
    · rw [if_neg hk]
      have hKD1 := keysDistinct_aset em (sortJoin file sf) (⟨file, sf, 0, []⟩ : FileEdge) h.1
      refine ⟨keysDistinct_amodify _ _ _ hKD1, ?_⟩
      intro p hp
      rcases mem_amodify_distinct _ _ _ hKD1 p hp with ⟨v, hv, hm⟩ | ⟨h', hpk⟩
      · rcases mem_aset _ _ _ _ hm with hq | hq
        · have hv0 : v = ⟨file, sf, 0, []⟩ := congrArg Prod.snd hq
          rw [hv, hv0]
        · have := h.2 _ hq
          rw [hv]
          simp only
          omega
      · rcases mem_aset _ _ _ _ h' with hq | hq
        · exact absurd (congrArg Prod.fst hq) hpk
        · exact h.2 p hq
  · rw [if_neg hr]; exact h

theorem cbEdges_weightinv (root : List String) (fs : List (List String))
    (files : List CbFile)
    (hspec : ∀ f ∈ files, ∀ imp ∈ cbImportsOf root fs f, imp.specifiers ≠ []) :
    EMWeightInv (cbHtmlEdges (cbFileData root fs files) files
      (cbImportEdges (cbFileData root fs files) files)) := by
  set fd := cbFileData root fs files with hfddef
  have h1 : EMWeightInv (cbImportEdges fd files) := by
    rw [cbImportEdges]
    refine foldl_preserves (cbImportEdgesStep fd) EMWeightInv files ?_ []
      ⟨List.Pairwise.nil, by intro p hp; simp at hp⟩
    intro em f _ hem
    rw [cbImportEdgesStep]
    have hdimps : ∀ imp ∈ ((aget fd f.file).getD defaultFD).imports,
        imp.specifiers ≠ [] := by
      intro imp himp
      cases hget : aget fd f.file with
      | none => rw [hget] at himp; simp [defaultFD] at himp
      | some d =>
        rw [hget] at himp
        simp only [Option.getD_some] at himp
        have hmem := aget_eq_some_mem _ _ _ hget
        rcases cbFileData_imports_provenance root fs files (f.file, d)
            (by rw [hfddef] at hmem; exact hmem) with he | ⟨g, hg, he⟩
        · rw [he] at himp; simp at himp
        · rw [he] at himp
          exact hspec g hg imp himp
    refine foldl_preserves (addImportEdge f.file fd) EMWeightInv _ ?_ em hem
    intro em' imp himp h
    refine addImportEdge_weightinv f.file fd em' imp ?_ h
    intro _
    have := hdimps imp himp
    cases hsp : imp.specifiers with
    | nil => exact absurd hsp this
    | cons a l => simp
  rw [cbHtmlEdges]
  refine foldl_preserves (cbHtmlEdgesStep fd) EMWeightInv files ?_ _ h1
  intro em f _ hem
  rw [cbHtmlEdgesStep]
  cases ((aget fd f.file).getD defaultFD).htmlScriptRefs with
  | none => exact hem
  | some refs =>
    exact foldl_preserves (addScriptEdge f.file fd) EMWeightInv refs
      (fun em' sf _ h => addScriptEdge_weightinv f.file fd em' sf h) em hem

/-- C5 (amended): the returned edge list holds at most one edge per
unordered pair of file ids (the sorted canonical key collapses the two
directions), and every edge has weight at least one provided every
contributing import carries at least one specifier.  (A bare side-effect
statement has zero specifiers and produces a weight-0 edge, see the
counterexample.) -/
theorem C5_canonical_pair_and_weights (root : List String)
    (fs : List (List String)) (files : List CbFile)
    (hspec : ∀ f ∈ files, ∀ imp ∈ cbImportsOf root fs f, imp.specifiers ≠ []) :
    (analyzeCodebaseModel root fs files).edges.Pairwise (fun a b => ¬ samePair a b) ∧
    ∀ e ∈ (analyzeCodebaseModel root fs files).edges, 1 ≤ e.weight := by
  constructor
  · have h := emKeyInv_pairwise _ (cbEdges_keyinv root fs files)
    simpa only [analyzeCodebaseModel] using h
  · intro e he
    simp only [analyzeCodebaseModel, avalues] at he
    rw [List.mem_map] at he
    obtain ⟨p, hp, hpe⟩ := he
    have h := (cbEdges_weightinv root fs files hspec).2 p hp
    rw [hpe] at h
    exact h

/-- Witness for C5: in the self-require run (whose single import carries
one specifier) the edge list is pairwise distinct per unordered pair and
every edge has weight at least one. -/
theorem C5_witness :
    (analyzeCodebaseModel ["root"] selfRequireFs selfRequireFiles).edges.Pairwise
      (fun a b => ¬ samePair a b) ∧
    ∀ e ∈ (analyzeCodebaseModel ["root"] selfRequireFs selfRequireFiles).edges,
      1 ≤ e.weight :=
  C5_canonical_pair_and_weights ["root"] selfRequireFs selfRequireFiles (by decide)

/-- Counterexample to C5: the bare side-effect import `import "./b.js";`
contributes zero specifiers, so the run returns the canonical edge with
weight 0, refuting "every returned FileEdge has weight ≥ 1". -/
theorem C5_counterexample_weight_zero :
    (analyzeCodebaseModel ["root"] bareImportFs bareImportFiles).edges =
      [⟨"a.js", "b.js", 0, []⟩] ∧
    ¬ (∀ e ∈ (analyzeCodebaseModel ["root"] bareImportFs bareImportFiles).edges,
        1 ≤ e.weight) := by
  constructor
  · decide
  · decide

/-! ## C3: handling of unparseable files -/

/-- The `fileData` entry recorded for a file whose parse failed:
`{ exports: [], imports: [], lines: 0 }`. -/
def parseFailEntry : FileData := ⟨[], [], 0, [], none⟩

theorem aget_cbPass1Step_ne (acc : List (String × FileData)) (f : CbFile)
    (k : String) (h : f.file ≠ k) :
    aget (cbPass1Step acc f) k = aget acc k := by
  rw [cbPass1Step]
  by_cases hh : isHtmlExt (extname f.file) = true
  · rw [if_pos hh, aget_aset_ne _ _ _ _ h]
  · rw [if_neg hh]
    cases f.ast with
    | none => rw [aget_aset_ne _ _ _ _ h]
    | some ast => rw [aget_aset_ne _ _ _ _ h]

theorem aget_cbPass1_bad (bad : CbFile) (l : List CbFile) :
    ∀ (acc : List (String × FileData)),
      (∀ f ∈ l, f.file = bad.file → f.ast.isNone = true ∧
        isHtmlExt (extname f.file) = false) →
      (bad ∈ l ∨ aget acc bad.file = some parseFailEntry) →
      aget (l.foldl cbPass1Step acc) bad.file = some parseFailEntry := by
  induction l with
  | nil =>
    intro acc _ hd
    rcases hd with h | h
    · simp at h
    · exact h
  | cons f rest ih =>
    intro acc hl hd
    simp only [List.foldl_cons]
    have hstep : f.file = bad.file →
        aget (cbPass1Step acc f) bad.file = some parseFailEntry := by
      intro hf
      have hprops := hl f (List.mem_cons_self _ _) hf
      have hastn : f.ast = none := Option.isNone_iff_eq_none.mp hprops.1
      rw [cbPass1Step, if_neg (by rw [hprops.2]; simp), hastn, hf]
      rw [parseFailEntry]
      exact aget_aset_self _ _ _
    refine ih _ (fun g hg => hl g (List.mem_cons_of_mem _ hg)) ?_
    rcases hd with h | h
    · rcases List.mem_cons.mp h with h | h
      · right
        exact hstep (by rw [← h])
      · left; exact h
    · right
      by_cases hf : f.file = bad.file
      · exact hstep hf
      · rw [aget_cbPass1Step_ne _ _ _ hf]
        exact h

theorem aget_cbPass2_bad (root : List String) (fs : List (List String))
    (badname : String) (l : List CbFile) :
    ∀ (fd0 : List (String × FileData)),
      (∀ f ∈ l, f.file = badname → f.ast.isNone = true) →
      aget (l.foldl (cbPass2Step root fs) fd0) badname = aget fd0 badname := by
  induction l with
  | nil => intro fd0 _; rfl
  | cons f rest ih =>
    intro fd0 hl
    simp only [List.foldl_cons]
    rw [ih _ (fun g hg => hl g (List.mem_cons_of_mem _ hg))]
    rw [cbPass2Step]
    by_cases hh : isHtmlExt (extname f.file) = true
    · rw [if_pos hh]
    · rw [if_neg hh]
      cases hast : f.ast with
      | none => rfl
      | some ast =>
        have hf : f.file ≠ badname := by
          intro he
          have := hl f (List.mem_cons_self _ _) he
          rw [hast] at this
          simp at this
        exact aget_amodify_ne _ _ _ _ hf

theorem cbFileData_bad (root : List String) (fs : List (List String))
    (files : List CbFile) (bad : CbFile) (hmem : bad ∈ files)
    (hall : ∀ f ∈ files, f.file = bad.file → f.ast.isNone = true ∧
      isHtmlExt (extname f.file) = false) :
    aget (cbFileData root fs files) bad.file = some parseFailEntry := by
  rw [cbFileData, cbPass2]
  rw [aget_cbPass2_bad root fs bad.file files _ (fun g hg he => (hall g hg he).1)]
  rw [cbPass1]
  exact aget_cbPass1_bad bad files [] hall (.inl hmem)

theorem mem_cbPass1_refs (l : List CbFile) :
    ∀ (acc : List (String × FileData)) (p : String × FileData),
      p ∈ l.foldl cbPass1Step acc →
      (∃ f ∈ l, isHtmlExt (extname f.file) = true ∧
        p.2.htmlScriptRefs = some f.scriptRefs) ∨
      p.2.htmlScriptRefs = none ∨ p ∈ acc := by
  induction l with
  | nil => intro acc p h; exact .inr (.inr h)
  | cons f rest ih =>
    intro acc p h
    simp only [List.foldl_cons] at h
    rcases ih _ p h with ⟨g, hg, hgp⟩ | h' | h'
    · exact .inl ⟨g, List.mem_cons_of_mem _ hg, hgp⟩
    · exact .inr (.inl h')
    · rw [cbPass1Step] at h'
      by_cases hh : isHtmlExt (extname f.file) = true
      · rw [if_pos hh] at h'
        rcases mem_aset _ _ _ _ h' with hq | hq
        · exact .inl ⟨f, List.mem_cons_self _ _, hh, by rw [hq]⟩
        · exact .inr (.inr hq)
      · rw [if_neg hh] at h'
        cases hast : f.ast with
        | none =>
          rw [hast] at h'
          rcases mem_aset _ _ _ _ h' with hq | hq
          · exact .inr (.inl (by rw [hq]))
          · exact .inr (.inr hq)
        | some ast =>
          rw [hast] at h'
          rcases mem_aset _ _ _ _ h' with hq | hq
          · exact .inr (.inl (by rw [hq]))
          · exact .inr (.inr hq)

theorem cbFileData_scriptRefs_provenance (root : List String)
    (fs : List (List String)) (files : List CbFile) (p : String × FileData)
    (hp : p ∈ cbFileData root fs files) (refs : List String)
    (hrefs : p.2.htmlScriptRefs = some refs) :
    ∃ f ∈ files, isHtmlExt (extname f.file) = true ∧ refs = f.scriptRefs := by
  obtain ⟨q, hq, _, h2, _⟩ := mem_cbPass2 root fs files _ p hp
  rcases mem_cbPass1_refs files [] q hq with ⟨g, hg, hh, hgq⟩ | h' | h'
  · rw [h2, hgq] at hrefs
    exact ⟨g, hg, hh, (Option.some.inj hrefs).symm⟩
  · rw [h2, h'] at hrefs
    simp at hrefs
  · simp at h'

/-- No accumulated edge touches the given file name. -/
def EMAvoids (badname : String) (em : List (String × FileEdge)) : Prop :=
  ∀ p ∈ em, p.2.source ≠ badname ∧ p.2.target ≠ badname

theorem addImportEdge_avoids (badname file : String)
    (fd : List (String × FileData)) (em : List (String × FileEdge)) (imp : Import)
    (hfile : file ≠ badname) (himp : imp.resolved ≠ some badname)
    (hem : EMAvoids badname em) :
    EMAvoids badname (addImportEdge file fd em imp) := by
  intro p hp
  rw [addImportEdge] at hp
  cases hres : imp.resolved with
  | none => rw [hres] at hp; exact hem p hp
  | some r =>
    rw [hres] at hp
    dsimp only at hp
    have hr' : r ≠ badname := by
      intro he
      exact himp (by rw [hres, he])
    by_cases hr : (aget fd r).isSome
    · rw [if_pos hr] at hp
      have hem1 : EMAvoids badname (if (aget em (sortJoin file r)).isSome then em
          else aset em (sortJoin file r) ⟨file, r, 0, []⟩) := by
        intro q hq
        by_cases hk : (aget em (sortJoin file r)).isSome
        · rw [if_pos hk] at hq; exact hem q hq
        · rw [if_neg hk] at hq
          rcases mem_aset _ _ _ _ hq with h | h
          · rw [h]; exact ⟨hfile, hr'⟩
          · exact hem q h
      rcases mem_amodify_loose _ _ _ p hp with ⟨v, hv, hm⟩ | h'
      · have := hem1 _ hm
        rw [hv]
        exact this
      · exact hem1 p h'
    · rw [if_neg hr] at hp
      exact hem p hp

theorem addScriptEdge_avoids (badname file : String)
    (fd : List (String × FileData)) (em : List (String × FileEdge)) (sf : String)
    (hfile : file ≠ badname) (hsf : sf ≠ badname)
    (hem : EMAvoids badname em) :
    EMAvoids badname (addScriptEdge file fd em sf) := by
  intro p hp
  rw [addScriptEdge] at hp
  dsimp only at hp
  by_cases hr : (aget fd sf).isSome
  · rw [if_pos hr] at hp
    have hem1 : EMAvoids badname (if (aget em (sortJoin file sf)).isSome then em
        else aset em (sortJoin file sf) ⟨file, sf, 0, []⟩) := by
      intro q hq
      by_cases hk : (aget em (sortJoin file sf)).isSome
      · rw [if_pos hk] at hq; exact hem q hq
      · rw [if_neg hk] at hq
        rcases mem_aset _ _ _ _ hq with h | h
        · rw [h]; exact ⟨hfile, hsf⟩
        · exact hem q h
    rcases mem_amodify_loose _ _ _ p hp with ⟨v, hv, hm⟩ | h'
    · have := hem1 _ hm
      rw [hv]
      exact this
    · exact hem1 p h'
  · rw [if_neg hr] at hp
    exact hem p hp

theorem symbolsAt_file (rel : String) (nd : Js) (anc : List Js) (s : Symbol)
    (hs : s ∈ symbolsAt rel (nd, anc)) : s.file = rel := by
  cases nd <;> simp only [symbolsAt] at hs
  case functionDeclaration id params body loc =>
    cases id with
    | none => simp at hs
    | some nm => simp at hs; rw [hs]
  case arrowFunctionExpression params body loc =>
    rcases anc with _ | ⟨h1, rest⟩
    · simp at hs
    · cases h1 <;> simp only at hs <;> try simp at hs
      next idn pat initd dloc =>
        cases hj : jsT idn with
        | none => rw [hj] at hs; simp at hs
        | some nm => rw [hj] at hs; simp at hs; rw [hs]
  case classDeclaration id sc members loc =>
    cases id with
    | none => simp at hs
    | some cn =>
      simp only [List.mem_append] at hs
      rcases hs with hs | hs
      · rw [List.mem_flatMap] at hs
        obtain ⟨m, hm, hsm⟩ := hs
        cases m <;> simp only at hsm <;> try simp at hsm
        next key mparams mbody mloc =>
          cases hj : jsT key with
          | none => rw [hj] at hsm; simp at hsm
          | some mn => rw [hj] at hsm; simp at hsm; rw [hsm]
      · simp at hs; rw [hs]
  case variableDeclaration ds loc =>
    by_cases hp : (parentIsProgram anc || isExportNamedParent anc) = true
    · rw [if_pos hp] at hs
      rw [List.mem_flatMap] at hs
      obtain ⟨d, hd, hsd⟩ := hs
      cases d <;> simp only at hsd <;> try simp at hsd
      next idn pat initd dloc =>
        cases hj : jsT idn with
        | none => rw [hj] at hsd; simp at hsd
        | some nm =>
          rw [hj] at hsd
          dsimp only at hsd
          by_cases hlen : nm.length < 2
          · rw [if_pos hlen] at hsd; simp at hsd
          · rw [if_neg hlen] at hsd
            by_cases hreq : isRequireCall initd = true
            · rw [if_pos hreq] at hsd; simp at hsd
            · rw [if_neg hreq] at hsd
              by_cases harr : isArrowInit initd = true
              · rw [if_pos harr] at hsd; simp at hsd
              · rw [if_neg harr] at hsd
                by_cases hfe : isFnExprInit initd = true
                · rw [if_pos hfe] at hsd; simp at hsd
                · rw [if_neg hfe] at hsd
                  simp at hsd
                  rw [hsd]
    · rw [if_neg hp] at hs
      simp at hs
  case tsTypeAliasDeclaration id loc =>
    cases id with
    | none => simp at hs
    | some nm => simp at hs; rw [hs]
  case tsInterfaceDeclaration id loc =>
    cases id with
    | none => simp at hs
    | some nm => simp at hs; rw [hs]
  all_goals simp at hs

/-- C3 (amended): a scanned file whose text fails to parse still yields a
FileNode, but with `lines` 0 (the actual line count is not recorded — see
the counterexample) and an empty export list; it contributes no imports, so
when no other scanned file resolves an import to it or references it from
an HTML script tag, no edge touches it; and the symbol graph contains no
symbol owned by it.  The run is a total function: no parse failure aborts
it. -/
theorem C3_unparseable_file_is_inert (root : List String)
    (fs : List (List String)) (cbFiles : List CbFile) (symFiles : List SymFile)
    (bad : CbFile) (hmem : bad ∈ cbFiles)
    (hall : ∀ f ∈ cbFiles, f.file = bad.file → f.ast.isNone = true ∧
      isHtmlExt (extname f.file) = false)
    (hnoimp : ∀ f ∈ cbFiles, ∀ imp ∈ cbImportsOf root fs f,
      imp.resolved ≠ some bad.file)
    (hnoscript : ∀ f ∈ cbFiles, isHtmlExt (extname f.file) = true →
      bad.file ∉ f.scriptRefs)
    (hsym : ∀ g ∈ symFiles, g.file = bad.file → g.ast.isNone = true) :
    (∃ n ∈ (analyzeCodebaseModel root fs cbFiles).nodes,
      n.id = bad.file ∧ n.lines = 0 ∧ n.exports = []) ∧
    (∀ e ∈ (analyzeCodebaseModel root fs cbFiles).edges,
      e.source ≠ bad.file ∧ e.target ≠ bad.file) ∧
    (∀ s ∈ (analyzeSymbolsModel root fs symFiles).symbols, s.file ≠ bad.file) := by
  have hentry := cbFileData_bad root fs cbFiles bad hmem hall
  refine ⟨?_, ?_, ?_⟩
  · simp only [analyzeCodebaseModel, cbNodes, List.map_map, List.mem_map]
    refine ⟨_, ⟨bad, hmem, rfl⟩, ?_, ?_, ?_⟩
    · simp [Function.comp_apply]
    · simp [Function.comp_apply, hentry, parseFailEntry]
    · simp [Function.comp_apply, hentry, parseFailEntry, mergedExports]
  · intro e he
    simp only [analyzeCodebaseModel, avalues] at he
    rw [List.mem_map] at he
    obtain ⟨p, hp, hpe⟩ := he
    set fd := cbFileData root fs cbFiles with hfddef
    have havoid : EMAvoids bad.file (cbHtmlEdges fd cbFiles (cbImportEdges fd cbFiles)) := by
      have h1 : EMAvoids bad.file (cbImportEdges fd cbFiles) := by
        rw [cbImportEdges]
        refine foldl_preserves (cbImportEdgesStep fd) (EMAvoids bad.file) cbFiles ?_ []
          (by intro q hq; simp at hq)
        intro em f hf hem
        rw [cbImportEdgesStep]
        by_cases hfb : f.file = bad.file
        · have : aget fd f.file = some parseFailEntry := by rw [hfb]; exact hentry
          rw [this]
          exact hem
        · have hdimps : ∀ imp ∈ ((aget fd f.file).getD defaultFD).imports,
              imp.resolved ≠ some bad.file := by
            intro imp himp
            cases hget : aget fd f.file with
            | none => rw [hget] at himp; simp [defaultFD] at himp
            | some d =>
              rw [hget] at himp
              simp only [Option.getD_some] at himp
              have hmemd := aget_eq_some_mem _ _ _ hget
              rcases cbFileData_imports_provenance root fs cbFiles (f.file, d)
                  hmemd with he' | ⟨g, hg, he'⟩
              · rw [he'] at himp; simp at himp
              · rw [he'] at himp
                exact hnoimp g hg imp himp
          refine foldl_preserves (addImportEdge f.file fd) (EMAvoids bad.file) _ ?_ em hem
          intro em' imp himp h
          exact addImportEdge_avoids bad.file f.file fd em' imp hfb (hdimps imp himp) h
      rw [cbHtmlEdges]
      refine foldl_preserves (cbHtmlEdgesStep fd) (EMAvoids bad.file) cbFiles ?_ _ h1
      intro em f hf hem
      rw [cbHtmlEdgesStep]
      cases hhr : ((aget fd f.file).getD defaultFD).htmlScriptRefs with
      | none => exact hem
      | some refs =>
        by_cases hfb : f.file = bad.file
        · have : aget fd f.file = some parseFailEntry := by rw [hfb]; exact hentry
          rw [this] at hhr
          simp [parseFailEntry] at hhr
        · have hrefs : ∀ sf ∈ refs, sf ≠ bad.file := by
            cases hget : aget fd f.file with
            | none =>
              rw [hget] at hhr
              simp [defaultFD] at hhr
            | some d =>
              rw [hget] at hhr
              simp only [Option.getD_some] at hhr
              have hmemd := aget_eq_some_mem _ _ _ hget
              obtain ⟨g, hg, hghtml, hgrefs⟩ :=
                cbFileData_scriptRefs_provenance root fs cbFiles (f.file, d) hmemd refs hhr
              intro sf hsf he
              rw [hgrefs] at hsf
              exact hnoscript g hg hghtml (he ▸ hsf)
          refine foldl_preserves (addScriptEdge f.file fd) (EMAvoids bad.file) refs ?_ em hem
          intro em' sf hsf h
          exact addScriptEdge_avoids bad.file f.file fd em' sf hfb (hrefs sf hsf) h
    have := havoid p hp
    rw [hpe] at this
    exact this
  · intro s hs
    have hs' : s ∈ (symPass1 root fs symFiles).allSymbols := by
      simpa [analyzeSymbolsModel] using hs
    rw [symPass1] at hs'
    rcases mem_symPass1_allSymbols root fs symFiles ⟨[], [], []⟩ s hs' with h | h
    · simp at h
    · obtain ⟨f, hf, ast, hast, hmem'⟩ := h
      simp only [extractSymbols] at hmem'
      rw [List.mem_flatMap] at hmem'
      obtain ⟨p, _, hps⟩ := hmem'
      have hfile := symbolsAt_file f.file p.1 p.2 s hps
      rw [hfile]
      intro he
      have := hsym f hf he
      rw [hast] at this
      simp at this

def badCbFile : CbFile := ⟨"bad.js", "a\nb\nc", none, []⟩

/-- Counterexample to C3: the unparseable three-line file is recorded with
`lines: 0`, not its actual line count of 3 — the claim's "lines field
equals the file's actual line count" fails. -/
theorem C3_counterexample_lines_zero :
    (analyzeCodebaseModel ["root"] [["root", "bad.js"]] [badCbFile]).nodes =
      [⟨"bad.js", [], 0, ".", ".js", 0⟩] ∧
    countLines badCbFile.source = 3 ∧
    ¬ (∀ n ∈ (analyzeCodebaseModel ["root"] [["root", "bad.js"]] [badCbFile]).nodes,
        n.id = "bad.js" → n.lines = countLines badCbFile.source) := by
  refine ⟨by decide, by decide, by decide⟩

/-- Witness for C3: one unparseable file, no other files; all hypotheses
hold and the conclusions apply. -/
theorem C3_witness :
    (∃ n ∈ (analyzeCodebaseModel ["root"] [["root", "bad.js"]] [badCbFile]).nodes,
      n.id = badCbFile.file ∧ n.lines = 0 ∧ n.exports = []) ∧
    (∀ e ∈ (analyzeCodebaseModel ["root"] [["root", "bad.js"]] [badCbFile]).edges,
      e.source ≠ badCbFile.file ∧ e.target ≠ badCbFile.file) ∧
    (∀ s ∈ (analyzeSymbolsModel ["root"] [["root", "bad.js"]]
        [⟨"bad.js", none, "a\nb\nc"⟩]).symbols, s.file ≠ badCbFile.file) :=
  C3_unparseable_file_is_inert ["root"] [["root", "bad.js"]] [badCbFile]
    [⟨"bad.js", none, "a\nb\nc"⟩] badCbFile (List.mem_cons_self _ _) (by decide)
    (by decide) (by decide) (by decide)

end CC
